import Mathlib

/-!
# Verification of the FileForge chunking engine

Shallow embedding of `packages/common/services/conversion/chunking/chunker.py`
and the parts of `packages/common/services/conversion/extractors/base.py` and
`packages/common/schemas/convert.py` that the chunker depends on.

Text is modelled as `List Char`.  Python integers are modelled as `Int` where
they can go negative (window offsets, configuration), `Nat` where the source
only ever produces non-negative values (lengths, chunk indices).  The
`while`-loops of the Fixed strategy are modelled with an explicit fuel
parameter returning `Option`, `none` meaning the loop has not terminated
within the given fuel.
-/

set_option maxHeartbeats 1000000

namespace FileForge

/-- Python `str.isspace` / the whitespace stripped by `str.strip()`,
restricted to the ASCII whitespace characters. -/
def pyIsSpace (c : Char) : Bool :=
  c = ' ' || c = '\t' || c = '\n' || c = '\x0d' || c = '\x0b' || c = '\x0c'

/-- Python `str.strip()`: drop whitespace from both ends. -/
def pyStrip (s : List Char) : List Char :=
  ((s.dropWhile pyIsSpace).reverse.dropWhile pyIsSpace).reverse

/-- Python slicing `s[a:b]` with full negative-index and clamping semantics. -/
def pySlice (s : List Char) (a b : Int) : List Char :=
  let n : Int := s.length
  let a' : Nat := (if a < 0 then max 0 (n + a) else min a n).toNat
  let b' : Nat := (if b < 0 then max 0 (n + b) else min b n).toNat
  (s.drop a').take (b' - a')

/-- `ElementType` enum from `extractors/base.py`. -/
inductive ElementType where
  | TEXT | TITLE | HEADING | PARAGRAPH | LIST_ITEM | TABLE | IMAGE
  | CODE | FORMULA | FOOTER | HEADER | PAGE_BREAK | UNKNOWN
deriving DecidableEq, Repr

/-- `ExtractedElement` dataclass from `extractors/base.py`.  The fields the
chunker never reads (`confidence`, `metadata`, `table_html`, `image_data`)
are omitted.  The Python field `section` is called `sectionName` here because
`section` is a Lean keyword. -/
structure ExtractedElement where
  element_type : ElementType
  content : List Char
  page_number : Option Int := none
  sectionName : Option (List Char) := none
  table_data : Option (List (List (List Char))) := none
  image_description : Option (List Char) := none
deriving DecidableEq, Repr

/-- `ExtractionResult` from `extractors/base.py`; only the fields the chunker
reads (`elements`, `raw_text`). -/
structure ExtractionResult where
  elements : List ExtractedElement
  raw_text : List Char := []
deriving DecidableEq, Repr

/-- `ProcessedChunk` dataclass from `chunker.py`.  The free-form `metadata`
dict is omitted. -/
structure ProcessedChunk where
  index : Nat
  text : List Char
  token_count : Nat
  char_count : Nat
  element_types : List ElementType := []
  source_pages : List Int := []
  source_sections : List (List Char) := []
deriving DecidableEq, Repr

/-- Chunker configuration: the `chunk_size` / `chunk_overlap` fields stored by
`Chunker.__init__` (which performs no validation on them). -/
structure ChunkerConfig where
  chunk_size : Int := 1000
  chunk_overlap : Int := 100
deriving DecidableEq, Repr

/-- Truthiness of Python `Optional[int]` (`None` and `0` are falsy). -/
def truthyPage : Option Int → Bool
  | none => false
  | some p => p ≠ 0

/-- Truthiness of Python `Optional[str]` (`None` and `""` are falsy). -/
def truthyStr : Option (List Char) → Bool
  | none => false
  | some s => s ≠ []

/-- Truthiness of Python `Optional[list[...]]` (`None` and `[]` are falsy). -/
def truthyTable : Option (List (List (List Char))) → Bool
  | none => false
  | some t => t ≠ []

/-- `Chunker.count_tokens` in the encoder-absent instantiation (`tiktoken`
unavailable or failed to load): `len(text) // 4`. -/
def count_tokens (text : List Char) : Nat :=
  text.length / 4

/-- `Chunker._get_size` in the encoder-absent instantiation: `len(text)`. -/
def get_size (text : List Char) : Nat :=
  text.length

/-- Sentence-ending punctuation of the regexes in `chunker.py`: `[.!?]`. -/
def isSentencePunct (c : Char) : Bool :=
  c = '.' || c = '!' || c = '?'

theorem dropWhile_length_le {α : Type} (p : α → Bool) (l : List α) :
    (l.dropWhile p).length ≤ l.length := by
  induction l with
  | nil => simp
  | cons a l ih =>
    by_cases h : p a
    · simp [List.dropWhile_cons, h]
      omega
    · simp [List.dropWhile_cons, h]

/-- Splitting pass of `re.split(r"(?<=[.!?])\s+", text)`: a split point is a
maximal whitespace run whose first character is preceded by `[.!?]`; the run
itself is consumed.  `prev` is the character just before the cursor, `cur`
the current piece accumulated in reverse. -/
def reSplitSentences (prev : Option Char) (cur : List Char) :
    List Char → List (List Char)
  | [] => [cur.reverse]
  | c :: rest =>
    if pyIsSpace c && (match prev with | some p => isSentencePunct p | none => false) then
      cur.reverse :: reSplitSentences none [] (rest.dropWhile pyIsSpace)
    else
      reSplitSentences (some c) (c :: cur) rest
termination_by l => l.length
decreasing_by
  · simp only [List.length_cons]
    exact Nat.lt_succ_of_le (dropWhile_length_le _ _)
  · simp

/-- `Chunker._split_into_sentences`: regex split, then strip each piece and
drop empty pieces. -/
def split_into_sentences (text : List Char) : List (List Char) :=
  ((reSplitSentences none [] text).map pyStrip).filter (· ≠ [])

/-- The character class `[A-Z]` of `Chunker._adjust_to_sentence_boundary`. -/
def isAsciiUpper (c : Char) : Bool :=
  'A' ≤ c && c ≤ 'Z'

/-- Whether the regex `[.!?]\s*[A-Z]` matches at the head of the list. -/
def matchPunctUpperAt (l : List Char) : Bool :=
  match l with
  | [] => false
  | c :: rest =>
    isSentencePunct c &&
      (match rest.dropWhile pyIsSpace with
       | [] => false
       | d :: _ => isAsciiUpper d)

/-- `re.search(r"[.!?]\s*[A-Z]", s)`: index of the leftmost match, if any. -/
def searchPunctUpper : List Char → Option Nat
  | [] => none
  | c :: rest =>
    if matchPunctUpperAt (c :: rest) then some 0
    else (searchPunctUpper rest).map (· + 1)

/-- `Chunker._adjust_to_sentence_boundary`: search the reversed text for
`[.!?]\s*[A-Z]`, and cut at that point when this keeps more than half of the
text. -/
def adjust_to_sentence_boundary (text : List Char) : List Char :=
  match searchPunctUpper text.reverse with
  | some i =>
    let end_pos := text.length - i
    -- Python compares `end_pos > len(text) * 0.5`.
    if 2 * end_pos > text.length then text.take end_pos else text
  | none => text

/-- One markdown table line `f"| {' | '.join(cells)} |"`. -/
def mdRow (cells : List (List Char)) : List Char :=
  "| ".toList ++ List.intercalate (" | ".toList) cells ++ " |".toList

/-- `Chunker._table_to_markdown`. -/
def table_to_markdown (table_data : List (List (List Char))) : List Char :=
  match table_data with
  | [] => []
  | hdr :: rest =>
    let lines := mdRow hdr :: mdRow (hdr.map fun _ => "---".toList) :: rest.map mdRow
    List.intercalate ['\n'] lines

/-- `ExtractionResult._table_to_text` from `extractors/base.py`. -/
def table_to_text (table_data : List (List (List Char))) : List Char :=
  match table_data with
  | [] => []
  | _ =>
    List.intercalate ['\n'] (table_data.map (List.intercalate (" | ".toList)))

/-- Python `str(row)` for a list of strings, e.g. `"['a', 'b']"`.  The cells
are quoted with single quotes; this is exact for cells free of quotes,
backslashes and non-printable characters, and only the length of this string
is ever consumed (as a row-size estimate in `_split_large_table`). -/
def pyStrOfRow (row : List (List Char)) : List Char :=
  let q : Char := Char.ofNat 39
  ('[' :: List.intercalate (", ".toList) (row.map fun cell => q :: cell ++ [q])) ++ [']']

/-- The per-element text contributed to the fallback stream built by
`ExtractionResult.get_raw_text` when `raw_text` is empty. -/
def elementStreamText (el : ExtractedElement) : Option (List Char) :=
  if el.element_type = ElementType.TABLE ∧ truthyTable el.table_data then
    some (table_to_text (el.table_data.getD []))
  else if el.element_type = ElementType.IMAGE ∧ truthyStr el.image_description then
    some ("[Image: ".toList ++ el.image_description.getD [] ++ "]".toList)
  else if el.content ≠ [] then some el.content
  else none

/-- `ExtractionResult.get_raw_text`: the stored `raw_text` when non-empty,
otherwise the blank-line join of the element-derived texts. -/
def get_raw_text (r : ExtractionResult) : List Char :=
  if r.raw_text ≠ [] then r.raw_text
  else List.intercalate ("\n\n".toList) (r.elements.filterMap elementStreamText)

/-- `Chunker._get_element_types`: `list(set(...))`.  Python set iteration
order is unspecified; modelled as first-occurrence deduplication, which has
the same membership. -/
def get_element_types (els : List ExtractedElement) : List ElementType :=
  (els.map (·.element_type)).dedup

/-- `Chunker._get_source_pages`: `list(set(...))` over truthy page numbers. -/
def get_source_pages (els : List ExtractedElement) : List Int :=
  (els.filterMap fun el =>
    if truthyPage el.page_number then some (el.page_number.getD 0) else none).dedup

/-- `Chunker._get_source_sections`: `list(set(...))` over truthy sections. -/
def get_source_sections (els : List ExtractedElement) : List (List Char) :=
  (els.filterMap fun el =>
    if truthyStr el.sectionName then some (el.sectionName.getD []) else none).dedup

/-- One iteration of the `for idx, element in enumerate(result.elements)`
loop of `Chunker._chunk_none`: skip the element when its stripped content is
empty, otherwise build its chunk at index `idx`. -/
def noneChunk (p : Nat × ExtractedElement) : Option ProcessedChunk :=
  if pyStrip p.2.content = [] then none
  else some {
    index := p.1
    text := p.2.content
    token_count := count_tokens p.2.content
    char_count := p.2.content.length
    element_types := [p.2.element_type]
    source_pages := if truthyPage p.2.page_number then [p.2.page_number.getD 0] else []
    source_sections := if truthyStr p.2.sectionName then [p.2.sectionName.getD []] else [] }

/-- `Chunker._chunk_none`: one chunk per element with non-whitespace content,
keeping the element's `enumerate` position as the chunk index. -/
def chunk_none (r : ExtractionResult) : List ProcessedChunk :=
  r.elements.enum.filterMap noneChunk

/-- The `while start < total_chars` loop of `Chunker._chunk_by_chars`,
with explicit fuel; `none` means the loop has not terminated within `fuel`
iterations.  `start` is an `Int` because `start = end - chunk_overlap` can go
negative. -/
def chunk_by_chars_go (cfg : ChunkerConfig) (text : List Char)
    (elements : List ExtractedElement) :
    Nat → Int → Nat → List ProcessedChunk → Option (List ProcessedChunk)
  | 0, _, _, _ => none
  | fuel + 1, start, chunk_idx, acc =>
    let total : Int := text.length
    if start < total then
      let e : Int := min (start + cfg.chunk_size) total
      let sliced := pySlice text start e
      let chunk_text := if e < total then adjust_to_sentence_boundary sliced else sliced
      let acc' :=
        if pyStrip chunk_text ≠ [] then
          acc ++ [{ index := chunk_idx
                    text := pyStrip chunk_text
                    token_count := count_tokens chunk_text
                    char_count := chunk_text.length
                    element_types := get_element_types elements
                    source_pages := get_source_pages elements
                    source_sections := get_source_sections elements }]
        else acc
      let idx' := if pyStrip chunk_text ≠ [] then chunk_idx + 1 else chunk_idx
      let start' := e - cfg.chunk_overlap
      if start' ≤ 0 ∧ total ≤ e then some acc'
      else chunk_by_chars_go cfg text elements fuel start' idx' acc'
    else some acc

/-- `Chunker._chunk_fixed` in the encoder-absent instantiation (the
`use_token_count and self.encoder` test is false, so the character path
`_chunk_by_chars` runs). -/
def chunk_fixed (cfg : ChunkerConfig) (r : ExtractionResult) (fuel : Nat) :
    Option (List ProcessedChunk) :=
  let full_text := get_raw_text r
  if pyStrip full_text = [] then some []
  else chunk_by_chars_go cfg full_text r.elements fuel 0 0 []

/-- The per-element text selected by the `for el in elements` loop of
`Chunker._create_chunk_from_elements`: a table with data contributes its raw
content, any other element its stripped content when non-blank. -/
def chunkElementText (el : ExtractedElement) : Option (List Char) :=
  if el.element_type = ElementType.TABLE ∧ truthyTable el.table_data then
    some el.content
  else if pyStrip el.content ≠ [] then some (pyStrip el.content)
  else none

/-- `Chunker._create_chunk_from_elements` (token counting in the
encoder-absent instantiation). -/
def create_chunk_from_elements (idx : Nat) (els : List ExtractedElement)
    (sectionLabel : Option (List Char)) : Option ProcessedChunk :=
  if els = [] then none
  else
    let texts := els.filterMap chunkElementText
    let text := List.intercalate ("\n\n".toList) texts
    if pyStrip text = [] then none
    else some {
      index := idx
      text := text
      token_count := count_tokens text
      char_count := text.length
      element_types := (els.map (·.element_type)).dedup
      source_pages := els.filterMap fun el =>
        if truthyPage el.page_number then some (el.page_number.getD 0) else none
      source_sections :=
        if truthyStr sectionLabel then [sectionLabel.getD []] else [] }

/-- The chunk record appended by both `chunks.append(...)` sites of
`Chunker._split_large_element`; `cur` is the raw `current_text` (the stored
text is its strip, `token_count`/`char_count` are computed on the raw
string). -/
def mkSplitChunk (el : ExtractedElement) (idx : Nat) (cur : List Char) :
    ProcessedChunk :=
  { index := idx
    text := pyStrip cur
    token_count := count_tokens cur
    char_count := cur.length
    element_types := [el.element_type]
    source_pages := if truthyPage el.page_number then [el.page_number.getD 0] else []
    source_sections := if truthyStr el.sectionName then [el.sectionName.getD []] else [] }

/-- The `for sentence in sentences` loop of `Chunker._split_large_element`
plus the trailing `if current_text.strip()` flush. -/
def split_text_go (cfg : ChunkerConfig) (el : ExtractedElement) :
    List (List Char) → List Char → Nat → Nat → List ProcessedChunk →
    List ProcessedChunk
  | [], cur, _, idx, acc =>
    if pyStrip cur ≠ [] then acc ++ [mkSplitChunk el idx cur] else acc
  | s :: rest, cur, cur_size, idx, acc =>
    let sentence_size := get_size s
    if ((cur_size + sentence_size : Nat) : Int) > cfg.chunk_size ∧ cur ≠ [] then
      split_text_go cfg el rest (s ++ [' ']) sentence_size (idx + 1)
        (acc ++ [mkSplitChunk el idx cur])
    else
      split_text_go cfg el rest (cur ++ s ++ [' ']) (cur_size + sentence_size) idx acc

/-- The chunk record appended by both sites of `Chunker._split_large_table`
(`text` is the markdown rendering of the current row group). -/
def mkTableChunk (el : ExtractedElement) (idx : Nat) (chunk_text : List Char) :
    ProcessedChunk :=
  { index := idx
    text := chunk_text
    token_count := count_tokens chunk_text
    char_count := chunk_text.length
    element_types := [ElementType.TABLE]
    source_pages := if truthyPage el.page_number then [el.page_number.getD 0] else []
    source_sections := if truthyStr el.sectionName then [el.sectionName.getD []] else [] }

/-- The `for row in table_data[1:]` loop of `Chunker._split_large_table` plus
the trailing `if len(current_rows) > 1` flush. -/
def split_table_go (cfg : ChunkerConfig) (el : ExtractedElement)
    (header : List (List Char)) :
    List (List (List Char)) → List (List (List Char)) → Nat → Nat →
    List ProcessedChunk → List ProcessedChunk
  | [], current_rows, _, idx, acc =>
    if current_rows.length > 1 then
      acc ++ [mkTableChunk el idx (table_to_markdown current_rows)]
    else acc
  | row :: rest, current_rows, cur_size, idx, acc =>
    let row_size := (pyStrOfRow row).length
    if ((cur_size + row_size : Nat) : Int) > cfg.chunk_size ∧ current_rows.length > 1 then
      split_table_go cfg el header rest ([header] ++ [row])
        ((pyStrOfRow header).length + row_size) (idx + 1)
        (acc ++ [mkTableChunk el idx (table_to_markdown current_rows)])
    else
      split_table_go cfg el header rest (current_rows ++ [row])
        (cur_size + row_size) idx acc

/-- `Chunker._split_large_table`. -/
def split_large_table (cfg : ChunkerConfig) (el : ExtractedElement)
    (start_index : Nat) : List ProcessedChunk :=
  match el.table_data with
  | none => []
  | some td =>
    if td = [] then []
    else
      let header := td.headD []
      split_table_go cfg el header td.tail [header] (pyStrOfRow header).length
        start_index []

/-- `Chunker._split_large_element` (sizes in the encoder-absent
instantiation). -/
def split_large_element (cfg : ChunkerConfig) (el : ExtractedElement)
    (start_index : Nat) : List ProcessedChunk :=
  if el.element_type = ElementType.TABLE ∧ truthyTable el.table_data then
    split_large_table cfg el start_index
  else
    split_text_go cfg el (split_into_sentences el.content) [] 0 start_index []

/-- Mutable local state of `Chunker._chunk_semantic`. -/
structure SemState where
  chunks : List ProcessedChunk := []
  chunk_idx : Nat := 0
  current_section : Option (List Char) := none
  current_elements : List ExtractedElement := []
  current_size : Nat := 0

/-- The buffer-flush block of `Chunker._chunk_semantic`
(`if current_elements: chunk = ...; if chunk: ...; current_elements = [];
current_size = 0`). -/
def flushBuffer (st : SemState) : SemState :=
  if st.current_elements ≠ [] then
    match create_chunk_from_elements st.chunk_idx st.current_elements
        st.current_section with
    | some c =>
      { st with chunks := st.chunks ++ [c], chunk_idx := st.chunk_idx + 1,
                current_elements := [], current_size := 0 }
    | none => { st with current_elements := [], current_size := 0 }
  else st

/-- The oversized-element arm of the `_chunk_semantic` loop body, applied
after the buffer flush: append the decomposition of `el` and advance the
chunk counter past it (`for c in split_chunks: chunks.append(c);
chunk_idx += 1`). -/
def oversizeStep (cfg : ChunkerConfig) (el : ExtractedElement)
    (st1 : SemState) : SemState :=
  { st1 with chunks := st1.chunks ++ split_large_element cfg el st1.chunk_idx,
             chunk_idx := st1.chunk_idx +
               (split_large_element cfg el st1.chunk_idx).length }

/-- The ordinary arm of the `_chunk_semantic` loop body: decide
`should_break`, flush if so, update the current section for Title/Heading
elements, then append the element to the buffer. -/
def bufferStep (cfg : ChunkerConfig) (el : ExtractedElement)
    (st : SemState) : SemState :=
  let is_section_break :=
    el.element_type = ElementType.TITLE ∨ el.element_type = ElementType.HEADING
  let element_size := get_size el.content
  let should_break :=
    (is_section_break ∧ st.current_elements ≠ []) ∨
      ((st.current_size + element_size : Nat) : Int) > cfg.chunk_size
  let st1 := if should_break then flushBuffer st else st
  let st2 :=
    if is_section_break then { st1 with current_section := some el.content }
    else st1
  { st2 with current_elements := st2.current_elements ++ [el],
             current_size := st2.current_size + element_size }

/-- The `for element in result.elements` loop of `Chunker._chunk_semantic`,
followed by the final flush. -/
def sem_go (cfg : ChunkerConfig) :
    List ExtractedElement → SemState → List ProcessedChunk
  | [], st => (flushBuffer st).chunks
  | el :: rest, st =>
    if ((get_size el.content : Nat) : Int) > cfg.chunk_size then
      sem_go cfg rest (oversizeStep cfg el (flushBuffer st))
    else
      sem_go cfg rest (bufferStep cfg el st)

/-- `Chunker._chunk_semantic` (sizes and token counts in the encoder-absent
instantiation). -/
def chunk_semantic (cfg : ChunkerConfig) (r : ExtractionResult) :
    List ProcessedChunk :=
  sem_go cfg r.elements {}

/-!
## Encoder-parametric embedding

The semantic strategy again, with the `tiktoken` encoder modelled as an
injected function that may raise (`Except Unit`).  `Chunker.count_tokens`
wraps its encoder call in `try/except` and falls back to `len(text) // 4`;
`Chunker._get_size` calls the encoder bare, so an encoder exception
propagates through `_chunk_semantic` to the caller.
-/

/-- A `tiktoken` encoding object; `encode` may raise. -/
structure Encoder where
  encode : List Char → Except Unit (List Nat)

/-- Chunker configuration including the optional tokenizer state set up by
`Chunker.__init__`. -/
structure TokChunkerConfig where
  chunk_size : Int := 1000
  chunk_overlap : Int := 100
  use_token_count : Bool := true
  encoder : Option Encoder := none

/-- `Chunker.count_tokens` with an explicit encoder: the encoder call is
wrapped in `try/except`, falling back to `len(text) // 4`. -/
def count_tokens_enc (enc : Option Encoder) (text : List Char) : Nat :=
  match enc with
  | some e =>
    match e.encode text with
    | .ok toks => toks.length
    | .error _ => text.length / 4
  | none => text.length / 4

/-- `Chunker._get_size` with an explicit encoder: the encoder call is NOT
wrapped, so an encoder exception propagates. -/
def get_size_enc (cfg : TokChunkerConfig) (text : List Char) :
    Except Unit Nat :=
  match cfg.use_token_count, cfg.encoder with
  | true, some e => (e.encode text).map List.length
  | true, none => .ok text.length
  | false, _ => .ok text.length

/-- `Chunker._create_chunk_from_elements` with an explicit encoder (only the
`count_tokens` call differs from the pure version, and it cannot raise). -/
def create_chunk_from_elements_enc (enc : Option Encoder) (idx : Nat)
    (els : List ExtractedElement) (sectionLabel : Option (List Char)) :
    Option ProcessedChunk :=
  if els = [] then none
  else
    let texts := els.filterMap chunkElementText
    let text := List.intercalate ("\n\n".toList) texts
    if pyStrip text = [] then none
    else some {
      index := idx
      text := text
      token_count := count_tokens_enc enc text
      char_count := text.length
      element_types := (els.map (·.element_type)).dedup
      source_pages := els.filterMap fun el =>
        if truthyPage el.page_number then some (el.page_number.getD 0) else none
      source_sections :=
        if truthyStr sectionLabel then [sectionLabel.getD []] else [] }

/-- `mkSplitChunk` with an explicit encoder. -/
def mkSplitChunkEnc (enc : Option Encoder) (el : ExtractedElement) (idx : Nat)
    (cur : List Char) : ProcessedChunk :=
  { index := idx
    text := pyStrip cur
    token_count := count_tokens_enc enc cur
    char_count := cur.length
    element_types := [el.element_type]
    source_pages := if truthyPage el.page_number then [el.page_number.getD 0] else []
    source_sections := if truthyStr el.sectionName then [el.sectionName.getD []] else [] }

/-- The sentence loop of `Chunker._split_large_element` with an explicit
encoder; the per-sentence `_get_size` call may raise. -/
def split_text_go_enc (cfg : TokChunkerConfig) (el : ExtractedElement) :
    List (List Char) → List Char → Nat → Nat → List ProcessedChunk →
    Except Unit (List ProcessedChunk)
  | [], cur, _, idx, acc =>
    .ok (if pyStrip cur ≠ [] then acc ++ [mkSplitChunkEnc cfg.encoder el idx cur]
         else acc)
  | s :: rest, cur, cur_size, idx, acc => do
    let sentence_size ← get_size_enc cfg s
    if ((cur_size + sentence_size : Nat) : Int) > cfg.chunk_size ∧ cur ≠ [] then
      split_text_go_enc cfg el rest (s ++ [' ']) sentence_size (idx + 1)
        (acc ++ [mkSplitChunkEnc cfg.encoder el idx cur])
    else
      split_text_go_enc cfg el rest (cur ++ s ++ [' ']) (cur_size + sentence_size)
        idx acc

/-- `mkTableChunk` with an explicit encoder. -/
def mkTableChunkEnc (enc : Option Encoder) (el : ExtractedElement) (idx : Nat)
    (chunk_text : List Char) : ProcessedChunk :=
  { index := idx
    text := chunk_text
    token_count := count_tokens_enc enc chunk_text
    char_count := chunk_text.length
    element_types := [ElementType.TABLE]
    source_pages := if truthyPage el.page_number then [el.page_number.getD 0] else []
    source_sections := if truthyStr el.sectionName then [el.sectionName.getD []] else [] }

/-- The row loop of `Chunker._split_large_table` with an explicit encoder;
both the per-row size and the recomputed header size may raise. -/
def split_table_go_enc (cfg : TokChunkerConfig) (el : ExtractedElement)
    (header : List (List Char)) :
    List (List (List Char)) → List (List (List Char)) → Nat → Nat →
    List ProcessedChunk → Except Unit (List ProcessedChunk)
  | [], current_rows, _, idx, acc =>
    .ok (if current_rows.length > 1 then
           acc ++ [mkTableChunkEnc cfg.encoder el idx (table_to_markdown current_rows)]
         else acc)
  | row :: rest, current_rows, cur_size, idx, acc => do
    let row_size ← get_size_enc cfg (pyStrOfRow row)
    if ((cur_size + row_size : Nat) : Int) > cfg.chunk_size ∧ current_rows.length > 1 then do
      let header_size ← get_size_enc cfg (pyStrOfRow header)
      split_table_go_enc cfg el header rest ([header] ++ [row])
        (header_size + row_size) (idx + 1)
        (acc ++ [mkTableChunkEnc cfg.encoder el idx (table_to_markdown current_rows)])
    else
      split_table_go_enc cfg el header rest (current_rows ++ [row])
        (cur_size + row_size) idx acc

/-- `Chunker._split_large_table` with an explicit encoder. -/
def split_large_table_enc (cfg : TokChunkerConfig) (el : ExtractedElement)
    (start_index : Nat) : Except Unit (List ProcessedChunk) :=
  match el.table_data with
  | none => .ok []
  | some td =>
    if td = [] then .ok []
    else do
      let header := td.headD []
      let header_size ← get_size_enc cfg (pyStrOfRow header)
      split_table_go_enc cfg el header td.tail [header] header_size start_index []

/-- `Chunker._split_large_element` with an explicit encoder. -/
def split_large_element_enc (cfg : TokChunkerConfig) (el : ExtractedElement)
    (start_index : Nat) : Except Unit (List ProcessedChunk) :=
  if el.element_type = ElementType.TABLE ∧ truthyTable el.table_data then
    split_large_table_enc cfg el start_index
  else
    split_text_go_enc cfg el (split_into_sentences el.content) [] 0 start_index []

/-- `flushBuffer` with an explicit encoder (uses `count_tokens`, so it cannot
raise). -/
def flushBufferEnc (enc : Option Encoder) (st : SemState) : SemState :=
  if st.current_elements ≠ [] then
    match create_chunk_from_elements_enc enc st.chunk_idx st.current_elements
        st.current_section with
    | some c =>
      { st with chunks := st.chunks ++ [c], chunk_idx := st.chunk_idx + 1,
                current_elements := [], current_size := 0 }
    | none => { st with current_elements := [], current_size := 0 }
  else st

/-- The element loop of `Chunker._chunk_semantic` with an explicit encoder;
the per-element `_get_size` call may raise and then propagates. -/
def sem_go_enc (cfg : TokChunkerConfig) :
    List ExtractedElement → SemState → Except Unit (List ProcessedChunk)
  | [], st => .ok (flushBufferEnc cfg.encoder st).chunks
  | el :: rest, st => do
    let is_section_break :=
      el.element_type = ElementType.TITLE ∨ el.element_type = ElementType.HEADING
    let element_size ← get_size_enc cfg el.content
    if (element_size : Int) > cfg.chunk_size then
      let st1 := flushBufferEnc cfg.encoder st
      let split ← split_large_element_enc cfg el st1.chunk_idx
      sem_go_enc cfg rest
        { st1 with chunks := st1.chunks ++ split,
                   chunk_idx := st1.chunk_idx + split.length }
    else
      let should_break :=
        (is_section_break ∧ st.current_elements ≠ []) ∨
          ((st.current_size + element_size : Nat) : Int) > cfg.chunk_size
      let st1 := if should_break then flushBufferEnc cfg.encoder st else st
      let st2 :=
        if is_section_break then { st1 with current_section := some el.content }
        else st1
      sem_go_enc cfg rest
        { st2 with current_elements := st2.current_elements ++ [el],
                   current_size := st2.current_size + element_size }

/-- `Chunker._chunk_semantic` with an explicit encoder. -/
def chunk_semantic_enc (cfg : TokChunkerConfig) (r : ExtractionResult) :
    Except Unit (List ProcessedChunk) :=
  sem_go_enc cfg r.elements {}

/-- `Chunker._chunk_none` with an explicit encoder (only `count_tokens` is
used, so this is total). -/
def chunk_none_enc (enc : Option Encoder) (r : ExtractionResult) :
    List ProcessedChunk :=
  r.elements.enum.filterMap fun p =>
    if pyStrip p.2.content = [] then none
    else some {
      index := p.1
      text := p.2.content
      token_count := count_tokens_enc enc p.2.content
      char_count := p.2.content.length
      element_types := [p.2.element_type]
      source_pages := if truthyPage p.2.page_number then [p.2.page_number.getD 0] else []
      source_sections := if truthyStr p.2.sectionName then [p.2.sectionName.getD []] else [] }

/-- Validation performed by the `ConvertRequest` pydantic schema on the
chunking configuration: `chunk_size: ge=100, le=10000`,
`chunk_overlap: ge=0, le=1000`.  There is no cross-field check relating
`chunk_overlap` to `chunk_size`. -/
def convert_request_valid (chunk_size chunk_overlap : Int) : Bool :=
  decide (100 ≤ chunk_size) && decide (chunk_size ≤ 10000) &&
    decide (0 ≤ chunk_overlap) && decide (chunk_overlap ≤ 1000)

/-!
## General lemmas about the Python string primitives
-/

theorem pyStrip_decomp (s : List Char) :
    ∃ pre suf, s = pre ++ pyStrip s ++ suf ∧
      (∀ c ∈ pre, pyIsSpace c) ∧ ∀ c ∈ suf, pyIsSpace c := by
  refine ⟨s.takeWhile pyIsSpace,
    ((s.dropWhile pyIsSpace).reverse.takeWhile pyIsSpace).reverse, ?_, ?_, ?_⟩
  · conv_lhs => rw [← List.takeWhile_append_dropWhile pyIsSpace s]
    rw [List.append_assoc]
    congr 1
    calc s.dropWhile pyIsSpace
        = ((s.dropWhile pyIsSpace).reverse).reverse := by simp
      _ = ((s.dropWhile pyIsSpace).reverse.takeWhile pyIsSpace ++
            (s.dropWhile pyIsSpace).reverse.dropWhile pyIsSpace).reverse := by
            rw [List.takeWhile_append_dropWhile]
      _ = pyStrip s ++
            ((s.dropWhile pyIsSpace).reverse.takeWhile pyIsSpace).reverse := by
            rw [List.reverse_append]; rfl
  · intro c hc; exact List.mem_takeWhile_imp hc
  · intro c hc
    exact List.mem_takeWhile_imp (by simpa using hc)

theorem pyStrip_eq_nil_iff (s : List Char) :
    pyStrip s = [] ↔ ∀ c ∈ s, pyIsSpace c := by
  constructor
  · intro h c hc
    obtain ⟨pre, suf, hs, hpre, hsuf⟩ := pyStrip_decomp s
    rw [hs, h] at hc
    simp only [List.append_nil, List.mem_append] at hc
    rcases hc with hc | hc
    · simpa using hpre c (by simpa using hc)
    · exact hsuf c hc
  · intro h
    have h1 : s.dropWhile pyIsSpace = [] := List.dropWhile_eq_nil_iff.mpr h
    simp [pyStrip, h1]

theorem pyStrip_ne_nil_of_mem {s : List Char} {c : Char}
    (hc : c ∈ s) (hns : ¬ pyIsSpace c) : pyStrip s ≠ [] := by
  intro h
  exact hns (pyStrip_eq_nil_iff s |>.mp h c hc)

theorem mem_pyStrip_of_mem {s : List Char} {c : Char}
    (hc : c ∈ s) (hns : ¬ pyIsSpace c) : c ∈ pyStrip s := by
  obtain ⟨pre, suf, hs, hpre, hsuf⟩ := pyStrip_decomp s
  rw [hs] at hc
  simp only [List.mem_append] at hc
  rcases hc with (hc | hc) | hc
  · exact absurd (hpre c hc) hns
  · exact hc
  · exact absurd (hsuf c hc) hns

theorem pyStrip_nonspace_of_ne_nil {s : List Char} (h : pyStrip s ≠ []) :
    ∃ c ∈ s, ¬ pyIsSpace c := by
  by_contra hall
  push_neg at hall
  exact h (pyStrip_eq_nil_iff s |>.mpr fun c hc => by
    have := hall c hc
    simpa using this)

theorem pyStrip_pyStrip_ne_nil {s : List Char} (h : pyStrip s ≠ []) :
    pyStrip (pyStrip s) ≠ [] := by
  obtain ⟨c, hc, hns⟩ := pyStrip_nonspace_of_ne_nil h
  exact pyStrip_ne_nil_of_mem (mem_pyStrip_of_mem hc hns) hns

theorem pyStrip_length_le (s : List Char) : (pyStrip s).length ≤ s.length := by
  obtain ⟨pre, suf, hs, -, -⟩ := pyStrip_decomp s
  conv_rhs => rw [hs]
  simp only [List.length_append]
  omega

theorem pyStrip_infix (s : List Char) : pyStrip s <:+: s := by
  obtain ⟨pre, suf, hs, -, -⟩ := pyStrip_decomp s
  exact ⟨pre, suf, hs.symm⟩

theorem adjust_front_segment (t : List Char) : adjust_to_sentence_boundary t <+: t := by
  unfold adjust_to_sentence_boundary
  cases h : searchPunctUpper t.reverse with
  | none => exact List.prefix_refl t
  | some i =>
    by_cases hlt : 2 * (t.length - i) > t.length
    · simpa [hlt] using List.take_prefix (t.length - i) t
    · simp [hlt]

theorem adjust_length_le (t : List Char) :
    (adjust_to_sentence_boundary t).length ≤ t.length :=
  (adjust_front_segment t).length_le

theorem pySlice_infix (s : List Char) (a b : Int) : pySlice s a b <:+: s := by
  unfold pySlice
  exact ((List.take_prefix _ _).isInfix).trans ((List.drop_suffix _ s).isInfix)

theorem pySlice_window_length_le (s : List Char) (start cs : Int)
    (hcs : 0 ≤ cs) :
    (pySlice s start (min (start + cs) s.length)).length ≤ cs.toNat := by
  unfold pySlice
  simp only [List.length_take, List.length_drop]
  split_ifs <;> omega

theorem mem_split_into_sentences {t s : List Char}
    (h : s ∈ split_into_sentences t) :
    s ≠ [] ∧ ∃ u, s = pyStrip u := by
  unfold split_into_sentences at h
  rw [List.mem_filter] at h
  obtain ⟨hmem, hne⟩ := h
  rw [List.mem_map] at hmem
  obtain ⟨u, -, hu⟩ := hmem
  exact ⟨by simpa using hne, u, hu.symm⟩

theorem sentence_has_nonspace {t s : List Char}
    (h : s ∈ split_into_sentences t) : ∃ c ∈ s, ¬ pyIsSpace c := by
  obtain ⟨hne, u, hu⟩ := mem_split_into_sentences h
  subst hu
  obtain ⟨c, hc, hns⟩ := pyStrip_nonspace_of_ne_nil hne
  exact ⟨c, mem_pyStrip_of_mem hc hns, hns⟩

theorem intercalate_cons_cons {α : Type} (sep x y : List α)
    (xs : List (List α)) :
    List.intercalate sep (x :: y :: xs) = x ++ sep ++ List.intercalate sep (y :: xs) := by
  simp [List.intercalate, List.intersperse]

theorem intercalate_length_le {α : Type} (sep : List α) :
    ∀ xs : List (List α),
      (List.intercalate sep xs).length ≤
        (xs.map List.length).sum + sep.length * xs.length
  | [] => by simp [List.intercalate]
  | [x] => by simp [List.intercalate]
  | x :: y :: xs => by
    rw [intercalate_cons_cons]
    have ih := intercalate_length_le sep (y :: xs)
    simp only [List.length_append, List.map_cons, List.sum_cons,
      List.length_cons] at ih ⊢
    have hm : sep.length * (xs.length + 1 + 1) =
        sep.length * (xs.length + 1) + sep.length := by ring
    omega

theorem intercalate_cons_exists {α : Type} (sep x : List α)
    (xs : List (List α)) :
    ∃ t, List.intercalate sep (x :: xs) = x ++ t := by
  cases xs with
  | nil => exact ⟨[], by simp [List.intercalate]⟩
  | cons y ys => exact ⟨sep ++ List.intercalate sep (y :: ys), by
      rw [intercalate_cons_cons]; simp⟩

/-!
## Concrete inputs used by the claims
-/

/-- A plain text element without provenance. -/
def elText (s : String) : ExtractedElement :=
  ⟨ElementType.TEXT, s.toList, none, none, none, none⟩

/-- A heading element without provenance. -/
def elHeading (s : String) : ExtractedElement :=
  ⟨ElementType.HEADING, s.toList, none, none, none, none⟩

/-- Input on which the Fixed-strategy window loop never terminates: a
seven-character stream with `chunk_size = 5`, `chunk_overlap = 1` (a positive
budget with `overlap < budget`). -/
def c1Input : ExtractionResult := ⟨[], "abcdefg".toList⟩

/-- An oversized table element whose `table_data` holds only a header row. -/
def c2Table : ExtractedElement :=
  ⟨ElementType.TABLE, "0123456789".toList, none, none,
    some [["0123456789".toList]], none⟩

/-- A table element with empty `content` but truthy `table_data`: its size
estimate is `0`, yet it still contributes a blank-line join in the chunk
text. -/
def c4EmptyTable : ExtractedElement :=
  ⟨ElementType.TABLE, [], none, none, some [["x".toList]], none⟩

/-- Ten zero-size table elements followed by a two-character text element:
every element is within a budget of 4, yet the flushed chunk text is 22
characters. -/
def c4Elems : List ExtractedElement :=
  List.replicate 10 c4EmptyTable ++ [elText "ab"]

/-- A text element carrying its own `section` attribute. -/
def c8El : ExtractedElement :=
  ⟨ElementType.TEXT, "x".toList, none, some "S".toList, none, none⟩

/-- An encoder that raises on every input. -/
def failEncoder : Encoder := ⟨fun _ => .error ()⟩

/-- A token-counting configuration wired to the always-raising encoder. -/
def c7Config : TokChunkerConfig := ⟨1000, 100, true, some failEncoder⟩

/-!
## Claim theorems
-/

theorem c1_stuck (fuel idx : Nat) (acc : List ProcessedChunk) :
    chunk_by_chars_go ⟨5, 1⟩ "abcdefg".toList [] fuel 6 idx acc = none := by
  induction fuel generalizing idx acc with
  | zero => rfl
  | succ f ih =>
    have h : chunk_by_chars_go ⟨5, 1⟩ "abcdefg".toList [] (f + 1) 6 idx acc =
        chunk_by_chars_go ⟨5, 1⟩ "abcdefg".toList [] f 6 (idx + 1)
          (acc ++ [⟨idx, ['g'], 0, 1, [], [], []⟩]) := rfl
    rw [h]
    exact ih _ _

/-- C1: the claim states the Fixed strategy's sliding-window loop terminates
for every input and every positive-budget configuration.  It does not: the
loop advance is `start = end - chunk_overlap` with a break only when
`start <= 0 and end >= total`, so with `chunk_size = 5`, `chunk_overlap = 1`
(overlap strictly below the budget) on a seven-character stream the window
start gets stuck at `6` and the loop runs forever — the guard described in
the spec (`force start = end`) is absent from the code.  Formally: the
character-mode window loop exhausts every fuel bound. -/
theorem c1_fixed_window_loop_diverges (fuel : Nat) :
    chunk_fixed ⟨5, 1⟩ c1Input fuel = none := by
  match fuel with
  | 0 => rfl
  | 1 => rfl
  | 2 => rfl
  | f + 3 =>
    have h : chunk_fixed ⟨5, 1⟩ c1Input (f + 3) =
        chunk_by_chars_go ⟨5, 1⟩ "abcdefg".toList [] (f + 1) 6 2
          [⟨0, "abcde".toList, 1, 5, [], [], []⟩,
           ⟨1, "efg".toList, 0, 3, [], [], []⟩] := rfl
    rw [h]
    exact c1_stuck _ _ _

/-- C2: the claim states the Semantic strategy never drops a non-empty
element's content.  Counter-evaluation: an oversized table element whose
`table_data` holds only a header row is routed to `_split_large_table`,
whose flushes all require `len(current_rows) > 1`, so no chunk is ever
emitted and the content is silently lost. -/
theorem c2_single_row_table_dropped :
    chunk_semantic ⟨5, 100⟩ ⟨[c2Table], []⟩ = [] ∧
      c2Table.content ≠ [] ∧ (5 : Int) < (get_size c2Table.content : Int) := by
  decide

/-- C3 counterexample: on `[Text "a", Text "", Text "b"]` the None strategy
emits chunks with indices `0` and `2` — the `enumerate` position — not the
renumbered `0` and `1` the claim states. -/
theorem c3_none_strategy_keeps_gaps :
    (chunk_none ⟨[elText "a", elText "", elText "b"], []⟩).map
        (fun c => (c.index, c.text)) = [(0, "a".toList), (2, "b".toList)] ∧
      [((0 : Nat), "a".toList), (2, "b".toList)] ≠
        [(0, "a".toList), (1, "b".toList)] := by
  decide

/-- C4 counterexample: with budget 4, ten zero-size table elements (empty
content, truthy `table_data`) plus a two-character text element all fit the
per-element size test, yet the single flushed chunk has `token_count = 5 > 4`
because the `"\n\n"` join overhead is never counted — so a chunk can exceed
the budget without any oversized-content escape hatch being involved. -/
theorem c4_blank_line_overhead_breaks_budget :
    (∀ el ∈ c4Elems, (get_size el.content : Int) ≤ 4) ∧
      (chunk_semantic ⟨4, 0⟩ ⟨c4Elems, []⟩).map (·.token_count) = [5] ∧
      ¬ ((5 : Int) ≤ 4) := by
  decide

/-- C5 counterexample: the request schema accepts `chunk_size = 100,
chunk_overlap = 100`, a configuration with `overlap ≥ budget`, so such
configurations are not rejected at the boundary. -/
theorem c5_overlap_eq_budget_accepted :
    convert_request_valid 100 100 = true ∧ (100 : Int) ≤ 100 := by
  decide

/-- C5 amended: the schema rejects every non-positive budget (its lower
bound is 100) and enforces exactly the per-field bounds
`100 ≤ chunk_size ≤ 10000`, `0 ≤ chunk_overlap ≤ 1000`; no cross-field check
relates overlap to budget. -/
theorem c5_schema_bounds :
    (∀ s o : Int, s ≤ 0 → convert_request_valid s o = false) ∧
      (∀ s o : Int, convert_request_valid s o = true ↔
        (100 ≤ s ∧ s ≤ 10000 ∧ 0 ≤ o ∧ o ≤ 1000)) := by
  constructor
  · intro s o hs
    unfold convert_request_valid
    simp only [Bool.and_eq_false_iff, decide_eq_false_iff_not]
    omega
  · intro s o
    unfold convert_request_valid
    simp only [Bool.and_eq_true, decide_eq_true_eq]
    tauto

theorem c5_schema_bounds_witness :
    convert_request_valid 0 500 = false ∧
      (convert_request_valid 101 50 = true ↔
        (100 ≤ (101 : Int) ∧ (101 : Int) ≤ 10000 ∧ 0 ≤ (50 : Int) ∧ (50 : Int) ≤ 1000)) :=
  ⟨c5_schema_bounds.1 0 500 (by norm_num), c5_schema_bounds.2 101 50⟩

/-- The fallback documented in the spec — `max(1, len(text)/4)` rounded
down — stated for comparison with the implemented `count_tokens`. -/
def spec_count_tokens_fallback (text : List Char) : Nat :=
  max 1 (text.length / 4)

/-- C6 counterexample: the implemented fallback is `len(text) // 4` with no
floor of one, so a two-character text counts as zero tokens and the chunk
built from it carries `token_count = 0`, contradicting the claimed
`max(1, len/4)` and the claimed `token_count ≥ 1`. -/
theorem c6_short_text_counts_zero :
    count_tokens "ab".toList = 0 ∧
      spec_count_tokens_fallback "ab".toList = 1 ∧
      (chunk_none ⟨[elText "ab"], []⟩).map (·.token_count) = [0] := by
  decide

/-- C6 amended: the fallback token counter returns `len(text) // 4` (no
minimum of one); it is at least one only once the text has four or more
characters, and every None-strategy chunk's `token_count` is exactly the
fallback count of its text. -/
theorem c6_fallback_floor_div :
    (∀ t : List Char, count_tokens t = t.length / 4) ∧
      (∀ t : List Char, 4 ≤ t.length → 1 ≤ count_tokens t) ∧
      (∀ r : ExtractionResult, ∀ c ∈ chunk_none r,
        c.token_count = count_tokens c.text) := by
  refine ⟨fun t => rfl, fun t h => ?_, fun r c hc => ?_⟩
  · unfold count_tokens
    omega
  · unfold chunk_none at hc
    rw [List.mem_filterMap] at hc
    obtain ⟨p, -, hp⟩ := hc
    unfold noneChunk at hp
    by_cases hstrip : pyStrip p.2.content = []
    · simp [hstrip] at hp
    · rw [if_neg hstrip] at hp
      obtain rfl := Option.some_injective _ hp
      rfl

theorem c6_fallback_floor_div_witness :
    (4 ≤ ("abcd".toList).length ∧ 1 ≤ count_tokens "abcd".toList) ∧
      ∀ c ∈ chunk_none ⟨[elText "a"], []⟩, c.token_count = count_tokens c.text :=
  ⟨⟨by decide, c6_fallback_floor_div.2.1 "abcd".toList (by decide)⟩,
    c6_fallback_floor_div.2.2 ⟨[elText "a"], []⟩⟩

/-- C7 counterexample: with a tokenizer wired in whose `encode` raises, the
Semantic strategy propagates the error out of `chunk()` (the `_get_size`
call is not wrapped in `try/except`), so the claim that a tokenizer failure
is always caught locally and a chunk sequence is still returned is false. -/
theorem c7_semantic_propagates_encoder_error :
    chunk_semantic_enc c7Config ⟨[elText "hello"], []⟩ = .error () := by
  rfl

/-- C7 amended: `count_tokens` does catch an encoder error and substitutes
the `len // 4` fallback (and returns the encoder count when encoding
succeeds), but `_get_size` does not: in token mode a raising encoder makes
the Semantic strategy propagate the error to the caller as soon as an
element's size is computed. -/
theorem c7_count_catches_size_propagates :
    (∀ (e : Encoder) (t : List Char), e.encode t = .error () →
      count_tokens_enc (some e) t = t.length / 4) ∧
      (∀ (e : Encoder) (t : List Char) (toks : List Nat),
        e.encode t = .ok toks → count_tokens_enc (some e) t = toks.length) ∧
      (∀ (cfg : TokChunkerConfig) (e : Encoder) (el : ExtractedElement)
        (rest : List ExtractedElement) (raw : List Char),
        cfg.use_token_count = true → cfg.encoder = some e →
        e.encode el.content = .error () →
        chunk_semantic_enc cfg ⟨el :: rest, raw⟩ = .error ()) := by
  refine ⟨fun e t he => ?_, fun e t toks he => ?_, fun cfg e el rest raw hu henc he => ?_⟩
  · simp [count_tokens_enc, he]
  · simp [count_tokens_enc, he]
  · unfold chunk_semantic_enc
    show sem_go_enc cfg (el :: rest) {} = Except.error ()
    unfold sem_go_enc
    simp only [get_size_enc, hu, henc, he, Except.map]
    rfl

theorem c7_count_catches_size_propagates_witness :
    count_tokens_enc (some failEncoder) "xy".toList = ("xy".toList).length / 4 ∧
      chunk_semantic_enc c7Config ⟨[elText "hi"], []⟩ = .error () :=
  ⟨c7_count_catches_size_propagates.1 failEncoder "xy".toList rfl,
    c7_count_catches_size_propagates.2.2 c7Config failEncoder (elText "hi") [] []
      rfl rfl rfl⟩

theorem range'_snoc (s n : Nat) : List.range' s n ++ [s + n] = List.range' s (n + 1) := by
  rw [List.range'_concat]
  simp

theorem range'_glue (s n m : Nat) :
    List.range' s n ++ List.range' (s + n) m = List.range' s (n + m) := by
  have h := List.range'_append s n m 1
  simp only [one_mul] at h
  rw [h, Nat.add_comm]

theorem chunk_none_pairs (l : List (Nat × ExtractedElement)) :
    (l.filterMap noneChunk).map (fun c => (c.index, c.text)) =
      (l.filter fun p => !(pyStrip p.2.content).isEmpty).map
        fun p => (p.1, p.2.content) := by
  induction l with
  | nil => rfl
  | cons p t ih =>
    by_cases hp : pyStrip p.2.content = []
    · simp [noneChunk, hp, ih]
    · simp [noneChunk, hp, ih]

theorem split_text_go_indices (cfg : ChunkerConfig) (el : ExtractedElement)
    (i0 : Nat) :
    ∀ (sents : List (List Char)) (cur : List Char) (sz : Nat)
      (acc : List ProcessedChunk),
      acc.map (·.index) = List.range' i0 acc.length →
      (split_text_go cfg el sents cur sz (i0 + acc.length) acc).map (·.index) =
        List.range' i0
          (split_text_go cfg el sents cur sz (i0 + acc.length) acc).length := by
  intro sents
  induction sents with
  | nil =>
    intro cur sz acc hacc
    rw [split_text_go]
    by_cases hcur : pyStrip cur ≠ []
    · rw [if_pos hcur]
      simp only [List.map_append, List.length_append, hacc, List.map_cons,
        List.map_nil, List.length_cons, List.length_nil]
      exact (by simpa using range'_snoc i0 acc.length)
    · rw [if_neg hcur]
      exact hacc
  | cons s rest ih =>
    intro cur sz acc hacc
    rw [split_text_go]
    by_cases hbr : ((sz + get_size s : Nat) : Int) > cfg.chunk_size ∧ cur ≠ []
    · rw [if_pos hbr]
      have hacc' : (acc ++ [mkSplitChunk el (i0 + acc.length) cur]).map (·.index) =
          List.range' i0 (acc ++ [mkSplitChunk el (i0 + acc.length) cur]).length := by
        simp only [List.map_append, List.length_append, hacc, List.map_cons,
          List.map_nil, List.length_cons, List.length_nil]
        exact (by simpa using range'_snoc i0 acc.length)
      have := ih (s ++ [' ']) (get_size s)
        (acc ++ [mkSplitChunk el (i0 + acc.length) cur]) hacc'
      simpa [Nat.add_assoc] using this
    · rw [if_neg hbr]
      exact ih (cur ++ s ++ [' ']) (sz + get_size s) acc hacc

theorem split_table_go_indices (cfg : ChunkerConfig) (el : ExtractedElement)
    (header : List (List Char)) (i0 : Nat) :
    ∀ (rows current_rows : List (List (List Char))) (sz : Nat)
      (acc : List ProcessedChunk),
      acc.map (·.index) = List.range' i0 acc.length →
      (split_table_go cfg el header rows current_rows sz (i0 + acc.length) acc).map
          (·.index) =
        List.range' i0
          (split_table_go cfg el header rows current_rows sz (i0 + acc.length)
            acc).length := by
  intro rows
  induction rows with
  | nil =>
    intro current_rows sz acc hacc
    rw [split_table_go]
    by_cases hlen : current_rows.length > 1
    · rw [if_pos hlen]
      simp only [List.map_append, List.length_append, hacc, List.map_cons,
        List.map_nil, List.length_cons, List.length_nil]
      exact (by simpa using range'_snoc i0 acc.length)
    · rw [if_neg hlen]
      exact hacc
  | cons row rest ih =>
    intro current_rows sz acc hacc
    rw [split_table_go]
    by_cases hbr : ((sz + (pyStrOfRow row).length : Nat) : Int) > cfg.chunk_size ∧
        current_rows.length > 1
    · rw [if_pos hbr]
      have hacc' : (acc ++ [mkTableChunk el (i0 + acc.length)
            (table_to_markdown current_rows)]).map (·.index) =
          List.range' i0 (acc ++ [mkTableChunk el (i0 + acc.length)
            (table_to_markdown current_rows)]).length := by
        simp only [List.map_append, List.length_append, hacc, List.map_cons,
          List.map_nil, List.length_cons, List.length_nil]
        exact (by simpa using range'_snoc i0 acc.length)
      have := ih ([header] ++ [row]) ((pyStrOfRow header).length + (pyStrOfRow row).length)
        (acc ++ [mkTableChunk el (i0 + acc.length) (table_to_markdown current_rows)])
        hacc'
      simpa [Nat.add_assoc] using this
    · rw [if_neg hbr]
      exact ih (current_rows ++ [row]) (sz + (pyStrOfRow row).length) acc hacc

theorem split_large_element_indices (cfg : ChunkerConfig) (el : ExtractedElement)
    (start_index : Nat) :
    (split_large_element cfg el start_index).map (·.index) =
      List.range' start_index (split_large_element cfg el start_index).length := by
  unfold split_large_element
  by_cases htab : el.element_type = ElementType.TABLE ∧ truthyTable el.table_data
  · rw [if_pos htab]
    unfold split_large_table
    cases htd : el.table_data with
    | none => rfl
    | some td =>
      by_cases hnil : td = []
      · subst hnil
        rfl
      · have := split_table_go_indices cfg el (td.headD []) start_index td.tail
          [td.headD []] (pyStrOfRow (td.headD [])).length [] rfl
        simpa [hnil] using this
  · rw [if_neg htab]
    have := split_text_go_indices cfg el start_index
      (split_into_sentences el.content) [] 0 [] rfl
    simpa using this

theorem flushBuffer_indices (st : SemState)
    (hst : st.chunks.map (·.index) = List.range' 0 st.chunks.length)
    (hidx : st.chunk_idx = st.chunks.length) :
    (flushBuffer st).chunks.map (·.index) =
        List.range' 0 (flushBuffer st).chunks.length ∧
      (flushBuffer st).chunk_idx = (flushBuffer st).chunks.length := by
  unfold flushBuffer
  by_cases hne : st.current_elements ≠ []
  · rw [if_pos hne]
    cases hc : create_chunk_from_elements st.chunk_idx st.current_elements
        st.current_section with
    | none => exact ⟨hst, hidx⟩
    | some c =>
      have hcidx : c.index = st.chunk_idx := by
        unfold create_chunk_from_elements at hc
        by_cases h1 : st.current_elements = []
        · simp [h1] at hc
        · rw [if_neg h1] at hc
          set texts := st.current_elements.filterMap chunkElementText with htexts
          by_cases h2 : pyStrip (List.intercalate ("\n\n".toList) texts) = []
          · rw [if_pos h2] at hc
            exact absurd hc (by simp)
          · rw [if_neg h2] at hc
            obtain rfl := Option.some_injective _ hc.symm
            rfl
      constructor
      · simp only [List.map_append, List.length_append, hst, List.map_cons,
          List.map_nil, List.length_cons, List.length_nil, hcidx, hidx]
        exact (by simpa using range'_snoc 0 st.chunks.length)
      · simp [hidx]
  · rw [if_neg hne]
    exact ⟨hst, hidx⟩

theorem bufferStep_spec (cfg : ChunkerConfig) (el : ExtractedElement)
    (st : SemState) :
    ∃ st1 : SemState,
      (st1 = flushBuffer st ∨ (st1 = st ∧
        ¬ ((st.current_size + get_size el.content : Nat) : Int) > cfg.chunk_size)) ∧
      bufferStep cfg el st =
        { st1 with
          current_section :=
            if el.element_type = ElementType.TITLE ∨
                el.element_type = ElementType.HEADING then some el.content
            else st1.current_section,
          current_elements := st1.current_elements ++ [el],
          current_size := st1.current_size + get_size el.content } := by
  unfold bufferStep
  dsimp only
  by_cases hbr : (el.element_type = ElementType.TITLE ∨
        el.element_type = ElementType.HEADING) ∧ st.current_elements ≠ [] ∨
      ((st.current_size + get_size el.content : Nat) : Int) > cfg.chunk_size
  · refine ⟨flushBuffer st, Or.inl rfl, ?_⟩
    rw [if_pos hbr]
    by_cases hsec : el.element_type = ElementType.TITLE ∨
        el.element_type = ElementType.HEADING
    · rw [if_pos hsec, if_pos hsec]
    · rw [if_neg hsec, if_neg hsec]
  · refine ⟨st, Or.inr ⟨rfl, fun h => hbr (Or.inr h)⟩, ?_⟩
    rw [if_neg hbr]
    by_cases hsec : el.element_type = ElementType.TITLE ∨
        el.element_type = ElementType.HEADING
    · rw [if_pos hsec, if_pos hsec]
    · rw [if_neg hsec, if_neg hsec]

theorem sem_go_indices (cfg : ChunkerConfig) :
    ∀ (elems : List ExtractedElement) (st : SemState),
      st.chunks.map (·.index) = List.range' 0 st.chunks.length →
      st.chunk_idx = st.chunks.length →
      (sem_go cfg elems st).map (·.index) =
        List.range' 0 (sem_go cfg elems st).length := by
  intro elems
  induction elems with
  | nil =>
    intro st hst hidx
    rw [sem_go]
    exact (flushBuffer_indices st hst hidx).1
  | cons el rest ih =>
    intro st hst hidx
    rw [sem_go]
    by_cases hbig : ((get_size el.content : Nat) : Int) > cfg.chunk_size
    · rw [if_pos hbig]
      obtain ⟨h1, h2⟩ := flushBuffer_indices st hst hidx
      apply ih
      · show ((flushBuffer st).chunks ++
            split_large_element cfg el (flushBuffer st).chunk_idx).map (·.index) =
          List.range' 0 ((flushBuffer st).chunks ++
            split_large_element cfg el (flushBuffer st).chunk_idx).length
        rw [h2, List.map_append, List.length_append, h1,
          split_large_element_indices]
        simpa using range'_glue 0 (flushBuffer st).chunks.length
          (split_large_element cfg el (flushBuffer st).chunks.length).length
      · simp [oversizeStep, h2]
    · rw [if_neg hbig]
      obtain ⟨st1, hst1, hbs⟩ := bufferStep_spec cfg el st
      rw [hbs]
      rcases hst1 with h | ⟨h, -⟩ <;> subst h
      · obtain ⟨h1, h2⟩ := flushBuffer_indices st hst hidx
        exact ih _ h1 h2
      · exact ih _ hst hidx

theorem fixed_go_indices (cfg : ChunkerConfig) (text : List Char)
    (els : List ExtractedElement) :
    ∀ (fuel : Nat) (start : Int) (acc res : List ProcessedChunk),
      chunk_by_chars_go cfg text els fuel start acc.length acc = some res →
      acc.map (·.index) = List.range' 0 acc.length →
      res.map (·.index) = List.range' 0 res.length := by
  intro fuel
  induction fuel with
  | zero =>
    intro start acc res h _
    exact absurd h (by rw [chunk_by_chars_go]; simp)
  | succ f ih =>
    intro start acc res h hacc
    rw [chunk_by_chars_go] at h
    by_cases hlt : start < (text.length : Int)
    · rw [if_pos hlt] at h
      simp only [] at h
      set e : Int := min (start + cfg.chunk_size) (text.length : Int) with he
      set sliced := pySlice text start e with hsliced
      set chunk_text := if e < (text.length : Int) then
          adjust_to_sentence_boundary sliced else sliced with hct
      set ck : ProcessedChunk :=
        ⟨acc.length, pyStrip chunk_text, count_tokens chunk_text,
          chunk_text.length, get_element_types els, get_source_pages els,
          get_source_sections els⟩ with hck
      by_cases hstrip : pyStrip chunk_text ≠ []
      · rw [if_pos hstrip, if_pos hstrip] at h
        have hacc' : (acc ++ [ck]).map (·.index) =
            List.range' 0 (acc ++ [ck]).length := by
          simp only [List.map_append, List.length_append, hacc, List.map_cons,
            List.map_nil, List.length_cons, List.length_nil, hck]
          exact (by simpa using range'_snoc 0 acc.length)
        by_cases hbreak : e - cfg.chunk_overlap ≤ 0 ∧ (text.length : Int) ≤ e
        · rw [if_pos hbreak] at h
          obtain rfl := Option.some_injective _ h
          exact hacc'
        · rw [if_neg hbreak] at h
          have h' : chunk_by_chars_go cfg text els f (e - cfg.chunk_overlap)
              (acc ++ [ck]).length (acc ++ [ck]) = some res := by
            simpa [List.length_append] using h
          exact ih _ _ _ h' hacc'
      · rw [if_neg hstrip, if_neg hstrip] at h
        by_cases hbreak : e - cfg.chunk_overlap ≤ 0 ∧ (text.length : Int) ≤ e
        · rw [if_pos hbreak] at h
          obtain rfl := Option.some_injective _ h
          exact hacc
        · rw [if_neg hbreak] at h
          exact ih _ _ _ h hacc
    · rw [if_neg hlt] at h
      obtain rfl := Option.some_injective _ h
      exact hacc

/-- C3 amended: only the Fixed and Semantic strategies renumber chunks to the
contiguous range `0..N-1`; the None strategy keeps each element's original
`enumerate` position as the chunk index, so skipped empty elements leave
gaps (on the claim's scenario the indices are `0` and `2`). -/
theorem c3_index_contiguity :
    (∀ r : ExtractionResult,
      (chunk_none r).map (fun c => (c.index, c.text)) =
        (r.elements.enum.filter fun p => !(pyStrip p.2.content).isEmpty).map
          fun p => (p.1, p.2.content)) ∧
      (∀ (cfg : ChunkerConfig) (r : ExtractionResult),
        (chunk_semantic cfg r).map (·.index) =
          List.range (chunk_semantic cfg r).length) ∧
      (∀ (cfg : ChunkerConfig) (r : ExtractionResult) (fuel : Nat)
        (res : List ProcessedChunk), chunk_fixed cfg r fuel = some res →
        res.map (·.index) = List.range res.length) := by
  refine ⟨fun r => chunk_none_pairs r.elements.enum, fun cfg r => ?_, ?_⟩
  · rw [List.range_eq_range']
    exact sem_go_indices cfg r.elements {} rfl rfl
  · intro cfg r fuel res h
    rw [List.range_eq_range']
    unfold chunk_fixed at h
    by_cases hempty : pyStrip (get_raw_text r) = []
    · rw [if_pos hempty] at h
      obtain rfl := Option.some_injective _ h
      rfl
    · rw [if_neg hempty] at h
      exact fixed_go_indices cfg (get_raw_text r) r.elements fuel 0 [] res h rfl

theorem c3_index_contiguity_witness :
    (chunk_none ⟨[elText "a", elText "", elText "b"], []⟩).map
        (fun c => (c.index, c.text)) =
      ((⟨[elText "a", elText "", elText "b"], []⟩ :
          ExtractionResult).elements.enum.filter
        fun p => !(pyStrip p.2.content).isEmpty).map
          (fun p => (p.1, p.2.content)) ∧
      (chunk_fixed ⟨10, 0⟩ ⟨[], "ab".toList⟩ 5 = some [⟨0, "ab".toList, 0, 2, [], [], []⟩] →
        ([⟨0, "ab".toList, 0, 2, [], [], []⟩] : List ProcessedChunk).map (·.index) =
          List.range 1) :=
  ⟨c3_index_contiguity.1 ⟨[elText "a", elText "", elText "b"], []⟩,
    fun h => c3_index_contiguity.2.2 ⟨10, 0⟩ ⟨[], "ab".toList⟩ 5 _ h⟩

/-- C8 counterexample: a chunk's `source_sections` comes from the running
section tracker (the content of the most recent Title/Heading), not from the
buffered elements' own `section` attributes: a lone text element carrying
`section = "S"` yields a chunk with empty `source_sections`. -/
theorem c8_sections_not_from_elements :
    (chunk_semantic ⟨1000, 100⟩ ⟨[c8El], []⟩).map (·.source_sections) = [[]] ∧
      c8El.sectionName = some "S".toList ∧
      ([] : List (List Char)) ≠ ["S".toList] := by
  decide

/-- C8 amended: a flushed chunk's `element_kinds` and `source_pages` are the
unions over exactly the elements included in the chunk, but `source_sections`
is the singleton of the running section tracker (the content of the most
recent preceding Title/Heading, empty when none is truthy), independent of
the elements' own `section` fields; the claim's Heading/Text scenario itself
holds, with `source_sections` `{"A"}` and `{"B"}`. -/
theorem c8_chunk_metadata :
    (∀ (idx : Nat) (els : List ExtractedElement) (sec : Option (List Char))
      (c : ProcessedChunk), create_chunk_from_elements idx els sec = some c →
      (∀ k, k ∈ c.element_types ↔ ∃ el ∈ els, el.element_type = k) ∧
      (∀ p, p ∈ c.source_pages ↔
        ∃ el ∈ els, truthyPage el.page_number ∧ el.page_number.getD 0 = p) ∧
      c.source_sections = (if truthyStr sec then [sec.getD []] else [])) ∧
      chunk_semantic ⟨1000, 100⟩
          ⟨[elHeading "A", elText "x", elHeading "B", elText "y"], []⟩ =
        [⟨0, "A\n\nx".toList, 1, 4, [ElementType.HEADING, ElementType.TEXT],
          [], ["A".toList]⟩,
         ⟨1, "B\n\ny".toList, 1, 4, [ElementType.HEADING, ElementType.TEXT],
          [], ["B".toList]⟩] := by
  constructor
  · intro idx els sec c hc
    unfold create_chunk_from_elements at hc
    by_cases h1 : els = []
    · simp [h1] at hc
    · rw [if_neg h1] at hc
      by_cases h2 : pyStrip (List.intercalate ("\n\n".toList)
          (els.filterMap chunkElementText)) = []
      · rw [if_pos h2] at hc
        exact absurd hc (by simp)
      · rw [if_neg h2] at hc
        obtain rfl := Option.some_injective _ hc.symm
        refine ⟨fun k => ?_, fun p => ?_, rfl⟩
        · simp [List.mem_dedup, List.mem_map]
        · simp only [List.mem_filterMap, Option.ite_none_right_eq_some,
            Option.some_inj]
  · decide

theorem c8_chunk_metadata_witness :
    ∀ c ∈ chunk_semantic ⟨1000, 100⟩
        ⟨[elHeading "A", elText "x", elHeading "B", elText "y"], []⟩,
      ∀ k, k ∈ c.element_types ↔
        ∃ el ∈ [elHeading "A", elText "x"] ++ [elHeading "B", elText "y"],
          el.element_type = k := by
  have h0 := (c8_chunk_metadata.1 0 [elHeading "A", elText "x"] (some "A".toList)
    ⟨0, "A\n\nx".toList, 1, 4, [ElementType.HEADING, ElementType.TEXT],
      [], ["A".toList]⟩ (by decide)).1
  have h1 := (c8_chunk_metadata.1 1 [elHeading "B", elText "y"] (some "B".toList)
    ⟨1, "B\n\ny".toList, 1, 4, [ElementType.HEADING, ElementType.TEXT],
      [], ["B".toList]⟩ (by decide)).1
  intro c hc
  rw [c8_chunk_metadata.2] at hc
  simp only [List.mem_cons, List.not_mem_nil, or_false] at hc
  rcases hc with rfl | rfl
  · intro k
    rw [h0 k]
    simp [elHeading, elText]
    tauto
  · intro k
    rw [h1 k]
    simp [elHeading, elText]
    tauto

theorem flushBuffer_chunks_cases (st : SemState) :
    (flushBuffer st).chunks = st.chunks ∨
      ∃ c, create_chunk_from_elements st.chunk_idx st.current_elements
          st.current_section = some c ∧
        (flushBuffer st).chunks = st.chunks ++ [c] := by
  unfold flushBuffer
  by_cases h : st.current_elements ≠ []
  · rw [if_pos h]
    cases hc : create_chunk_from_elements st.chunk_idx st.current_elements
        st.current_section with
    | none => exact Or.inl rfl
    | some c => exact Or.inr ⟨c, rfl, rfl⟩
  · rw [if_neg h]
    exact Or.inl rfl

theorem create_chunk_text {idx : Nat} {els : List ExtractedElement}
    {sec : Option (List Char)} {c : ProcessedChunk}
    (hc : create_chunk_from_elements idx els sec = some c) :
    c.text = List.intercalate ("\n\n".toList) (els.filterMap chunkElementText) ∧
      pyStrip c.text ≠ [] ∧ c.token_count = count_tokens c.text := by
  unfold create_chunk_from_elements at hc
  by_cases h1 : els = []
  · simp [h1] at hc
  · rw [if_neg h1] at hc
    by_cases h2 : pyStrip (List.intercalate ("\n\n".toList)
        (els.filterMap chunkElementText)) = []
    · rw [if_pos h2] at hc
      exact absurd hc (by simp)
    · rw [if_neg h2] at hc
      obtain rfl := Option.some_injective _ hc.symm
      exact ⟨rfl, h2, rfl⟩

theorem table_to_markdown_nonblank (rows : List (List (List Char)))
    (h : rows ≠ []) : pyStrip (table_to_markdown rows) ≠ [] := by
  cases rows with
  | nil => exact absurd rfl h
  | cons hdr rest =>
    obtain ⟨t, ht⟩ := intercalate_cons_exists ['\n'] (mdRow hdr)
      (mdRow (hdr.map fun _ => "---".toList) :: rest.map mdRow)
    have hmem : '|' ∈ table_to_markdown (hdr :: rest) := by
      show '|' ∈ List.intercalate ['\n']
        (mdRow hdr :: mdRow (hdr.map fun _ => "---".toList) :: rest.map mdRow)
      rw [ht]
      exact List.mem_append_left t (by simp [mdRow])
    exact pyStrip_ne_nil_of_mem hmem (by decide)

theorem split_text_go_nonblank (cfg : ChunkerConfig) (el : ExtractedElement) :
    ∀ (sents : List (List Char)) (cur : List Char) (sz idx : Nat)
      (acc : List ProcessedChunk),
      (∀ c ∈ acc, pyStrip c.text ≠ []) →
      (cur = [] ∨ ∃ ch ∈ cur, ¬ pyIsSpace ch) →
      (∀ s ∈ sents, ∃ ch ∈ s, ¬ pyIsSpace ch) →
      ∀ c ∈ split_text_go cfg el sents cur sz idx acc, pyStrip c.text ≠ [] := by
  intro sents
  induction sents with
  | nil =>
    intro cur sz idx acc hacc _ _ c hc
    rw [split_text_go] at hc
    by_cases hcur : pyStrip cur ≠ []
    · rw [if_pos hcur] at hc
      rcases List.mem_append.mp hc with h | h
      · exact hacc c h
      · obtain rfl := List.mem_singleton.mp h
        exact pyStrip_pyStrip_ne_nil hcur
    · rw [if_neg hcur] at hc
      exact hacc c hc
  | cons s rest ih =>
    intro cur sz idx acc hacc hcur hsents c hc
    rw [split_text_go] at hc
    have hs : ∃ ch ∈ s, ¬ pyIsSpace ch := hsents s (by simp)
    have hrest : ∀ u ∈ rest, ∃ ch ∈ u, ¬ pyIsSpace ch :=
      fun u hu => hsents u (by simp [hu])
    by_cases hbr : ((sz + get_size s : Nat) : Int) > cfg.chunk_size ∧ cur ≠ []
    · rw [if_pos hbr] at hc
      refine ih (s ++ [' ']) (get_size s) (idx + 1) _ ?_ ?_ hrest c hc
      · intro d hd
        rcases List.mem_append.mp hd with h | h
        · exact hacc d h
        · obtain rfl := List.mem_singleton.mp h
          have hne : pyStrip cur ≠ [] := by
            rcases hcur with rfl | ⟨ch, hch, hns⟩
            · exact absurd rfl hbr.2
            · exact pyStrip_ne_nil_of_mem hch hns
          exact pyStrip_pyStrip_ne_nil hne
      · obtain ⟨ch, hch, hns⟩ := hs
        exact Or.inr ⟨ch, by simp [hch], hns⟩
    · rw [if_neg hbr] at hc
      refine ih (cur ++ s ++ [' ']) (sz + get_size s) idx acc hacc ?_ hrest c hc
      obtain ⟨ch, hch, hns⟩ := hs
      exact Or.inr ⟨ch, by simp [hch], hns⟩

theorem split_table_go_nonblank (cfg : ChunkerConfig) (el : ExtractedElement)
    (header : List (List Char)) :
    ∀ (rows current_rows : List (List (List Char))) (sz idx : Nat)
      (acc : List ProcessedChunk),
      (∀ c ∈ acc, pyStrip c.text ≠ []) →
      ∀ c ∈ split_table_go cfg el header rows current_rows sz idx acc,
        pyStrip c.text ≠ [] := by
  intro rows
  induction rows with
  | nil =>
    intro current_rows sz idx acc hacc c hc
    rw [split_table_go] at hc
    by_cases hlen : current_rows.length > 1
    · rw [if_pos hlen] at hc
      rcases List.mem_append.mp hc with h | h
      · exact hacc c h
      · obtain rfl := List.mem_singleton.mp h
        exact table_to_markdown_nonblank _ (by rintro rfl; simp at hlen)
    · rw [if_neg hlen] at hc
      exact hacc c hc
  | cons row rest ih =>
    intro current_rows sz idx acc hacc c hc
    rw [split_table_go] at hc
    by_cases hbr : ((sz + (pyStrOfRow row).length : Nat) : Int) > cfg.chunk_size ∧
        current_rows.length > 1
    · rw [if_pos hbr] at hc
      refine ih _ _ _ _ ?_ c hc
      intro d hd
      rcases List.mem_append.mp hd with h | h
      · exact hacc d h
      · obtain rfl := List.mem_singleton.mp h
        exact table_to_markdown_nonblank _ (by rintro rfl; simp at hbr)
    · rw [if_neg hbr] at hc
      exact ih _ _ _ _ hacc c hc

theorem split_large_element_nonblank (cfg : ChunkerConfig)
    (el : ExtractedElement) (i : Nat) :
    ∀ c ∈ split_large_element cfg el i, pyStrip c.text ≠ [] := by
  intro c hc
  unfold split_large_element at hc
  by_cases htab : el.element_type = ElementType.TABLE ∧ truthyTable el.table_data
  · rw [if_pos htab] at hc
    unfold split_large_table at hc
    cases htd : el.table_data with
    | none => rw [htd] at hc; cases hc
    | some td =>
      rw [htd] at hc
      dsimp only at hc
      by_cases hnil : td = []
      · rw [if_pos hnil] at hc
        cases hc
      · rw [if_neg hnil] at hc
        exact split_table_go_nonblank cfg el _ _ _ _ _ _ (by simp) c hc
  · rw [if_neg htab] at hc
    refine split_text_go_nonblank cfg el _ [] 0 i [] (by simp) (Or.inl rfl)
      (fun s hs => sentence_has_nonspace hs) c hc

theorem sem_go_nonblank (cfg : ChunkerConfig) :
    ∀ (elems : List ExtractedElement) (st : SemState),
      (∀ c ∈ st.chunks, pyStrip c.text ≠ []) →
      ∀ c ∈ sem_go cfg elems st, pyStrip c.text ≠ [] := by
  intro elems
  induction elems with
  | nil =>
    intro st hst c hc
    rw [sem_go] at hc
    rcases flushBuffer_chunks_cases st with h | ⟨d, hd, h⟩
    · rw [h] at hc
      exact hst c hc
    · rw [h] at hc
      rcases List.mem_append.mp hc with hm | hm
      · exact hst c hm
      · obtain rfl := List.mem_singleton.mp hm
        exact (create_chunk_text hd).2.1
  | cons el rest ih =>
    intro st hst c hc
    rw [sem_go] at hc
    have hflush : ∀ d ∈ (flushBuffer st).chunks, pyStrip d.text ≠ [] := by
      rcases flushBuffer_chunks_cases st with h | ⟨d0, hd0, h⟩
      · rw [h]; exact hst
      · rw [h]
        intro d hd
        rcases List.mem_append.mp hd with hm | hm
        · exact hst d hm
        · obtain rfl := List.mem_singleton.mp hm
          exact (create_chunk_text hd0).2.1
    by_cases hbig : ((get_size el.content : Nat) : Int) > cfg.chunk_size
    · rw [if_pos hbig] at hc
      refine ih (oversizeStep cfg el (flushBuffer st)) ?_ c hc
      intro d hd
      rcases List.mem_append.mp hd with hm | hm
      · exact hflush d hm
      · exact split_large_element_nonblank cfg el _ d hm
    · rw [if_neg hbig] at hc
      obtain ⟨st1, hst1, hbs⟩ := bufferStep_spec cfg el st
      rw [hbs] at hc
      refine ih _ ?_ c hc
      rcases hst1 with h | ⟨h, -⟩ <;> subst h
      · exact hflush
      · exact hst

theorem fixed_go_nonblank (cfg : ChunkerConfig) (text : List Char)
    (els : List ExtractedElement) :
    ∀ (fuel : Nat) (start : Int) (idx : Nat) (acc res : List ProcessedChunk),
      chunk_by_chars_go cfg text els fuel start idx acc = some res →
      (∀ c ∈ acc, pyStrip c.text ≠ []) →
      ∀ c ∈ res, pyStrip c.text ≠ [] := by
  intro fuel
  induction fuel with
  | zero =>
    intro start idx acc res h _
    exact absurd h (by rw [chunk_by_chars_go]; simp)
  | succ f ih =>
    intro start idx acc res h hacc
    rw [chunk_by_chars_go] at h
    by_cases hlt : start < (text.length : Int)
    · rw [if_pos hlt] at h
      simp only [] at h
      set e : Int := min (start + cfg.chunk_size) (text.length : Int) with he
      set sliced := pySlice text start e with hsliced
      set chunk_text := if e < (text.length : Int) then
          adjust_to_sentence_boundary sliced else sliced with hct
      by_cases hstrip : pyStrip chunk_text ≠ []
      · rw [if_pos hstrip, if_pos hstrip] at h
        have hacc' : ∀ c ∈ acc ++ [(⟨idx, pyStrip chunk_text,
            count_tokens chunk_text, chunk_text.length, get_element_types els,
            get_source_pages els, get_source_sections els⟩ : ProcessedChunk)],
            pyStrip c.text ≠ [] := by
          intro c hc
          rcases List.mem_append.mp hc with hm | hm
          · exact hacc c hm
          · obtain rfl := List.mem_singleton.mp hm
            exact pyStrip_pyStrip_ne_nil hstrip
        by_cases hbreak : e - cfg.chunk_overlap ≤ 0 ∧ (text.length : Int) ≤ e
        · rw [if_pos hbreak] at h
          obtain rfl := Option.some_injective _ h
          exact hacc'
        · rw [if_neg hbreak] at h
          exact ih _ _ _ _ h hacc'
      · rw [if_neg hstrip, if_neg hstrip] at h
        by_cases hbreak : e - cfg.chunk_overlap ≤ 0 ∧ (text.length : Int) ≤ e
        · rw [if_pos hbreak] at h
          obtain rfl := Option.some_injective _ h
          exact hacc
        · rw [if_neg hbreak] at h
          exact ih _ _ _ _ h hacc
    · rw [if_neg hlt] at h
      obtain rfl := Option.some_injective _ h
      exact hacc

/-- C9: for every strategy and every input, every returned chunk's text is
non-empty after trimming whitespace (for the Fixed strategy, on every run of
the window loop that terminates within its fuel bound). -/
theorem c9_chunks_nonblank :
    (∀ r : ExtractionResult, ∀ c ∈ chunk_none r, pyStrip c.text ≠ []) ∧
      (∀ (cfg : ChunkerConfig) (r : ExtractionResult),
        ∀ c ∈ chunk_semantic cfg r, pyStrip c.text ≠ []) ∧
      (∀ (cfg : ChunkerConfig) (r : ExtractionResult) (fuel : Nat)
        (res : List ProcessedChunk), chunk_fixed cfg r fuel = some res →
        ∀ c ∈ res, pyStrip c.text ≠ []) := by
  refine ⟨fun r c hc => ?_, fun cfg r => sem_go_nonblank cfg r.elements {} (by simp),
    fun cfg r fuel res h => ?_⟩
  · unfold chunk_none at hc
    rw [List.mem_filterMap] at hc
    obtain ⟨p, -, hp⟩ := hc
    unfold noneChunk at hp
    by_cases hstrip : pyStrip p.2.content = []
    · simp [hstrip] at hp
    · rw [if_neg hstrip] at hp
      obtain rfl := Option.some_injective _ hp
      exact hstrip
  · unfold chunk_fixed at h
    by_cases hempty : pyStrip (get_raw_text r) = []
    · rw [if_pos hempty] at h
      obtain rfl := Option.some_injective _ h
      simp
    · rw [if_neg hempty] at h
      exact fixed_go_nonblank cfg (get_raw_text r) r.elements fuel 0 0 [] res h
        (by simp)

theorem c9_chunks_nonblank_witness :
    (∀ c ∈ chunk_none ⟨[elText "a"], []⟩, pyStrip c.text ≠ []) ∧
      (∀ c ∈ chunk_semantic ⟨1000, 100⟩ ⟨[elText "a"], []⟩, pyStrip c.text ≠ []) ∧
      (chunk_fixed ⟨10, 0⟩ ⟨[], "ab".toList⟩ 5 =
          some [⟨0, "ab".toList, 0, 2, [], [], []⟩] →
        ∀ c ∈ [(⟨0, "ab".toList, 0, 2, [], [], []⟩ : ProcessedChunk)],
          pyStrip c.text ≠ []) :=
  ⟨c9_chunks_nonblank.1 ⟨[elText "a"], []⟩,
    c9_chunks_nonblank.2.1 ⟨1000, 100⟩ ⟨[elText "a"], []⟩,
    fun h => c9_chunks_nonblank.2.2 ⟨10, 0⟩ ⟨[], "ab".toList⟩ 5 _ h⟩

/-- The element-independent fields of a chunk: everything except the
provenance metadata (`element_types`, `source_pages`, `source_sections`). -/
def chunkTextView (c : ProcessedChunk) : Nat × List Char × Nat × Nat :=
  (c.index, c.text, c.token_count, c.char_count)

theorem fixed_go_elements_irrelevant (cfg : ChunkerConfig) (text : List Char) :
    ∀ (fuel : Nat) (start : Int) (idx : Nat)
      (els els' : List ExtractedElement) (acc acc' : List ProcessedChunk),
      acc.map chunkTextView = acc'.map chunkTextView →
      Option.map (List.map chunkTextView)
          (chunk_by_chars_go cfg text els fuel start idx acc) =
        Option.map (List.map chunkTextView)
          (chunk_by_chars_go cfg text els' fuel start idx acc') := by
  intro fuel
  induction fuel with
  | zero =>
    intro start idx els els' acc acc' _
    rw [chunk_by_chars_go, chunk_by_chars_go]
  | succ f ih =>
    intro start idx els els' acc acc' hview
    rw [chunk_by_chars_go, chunk_by_chars_go]
    by_cases hlt : start < (text.length : Int)
    · rw [if_pos hlt, if_pos hlt]
      simp only []
      set e : Int := min (start + cfg.chunk_size) (text.length : Int) with he
      set sliced := pySlice text start e with hsliced
      set chunk_text := if e < (text.length : Int) then
          adjust_to_sentence_boundary sliced else sliced with hct
      by_cases hstrip : pyStrip chunk_text ≠ []
      · simp only [if_pos hstrip]
        have hview' : (acc ++ [(⟨idx, pyStrip chunk_text, count_tokens chunk_text,
            chunk_text.length, get_element_types els, get_source_pages els,
            get_source_sections els⟩ : ProcessedChunk)]).map chunkTextView =
            (acc' ++ [(⟨idx, pyStrip chunk_text, count_tokens chunk_text,
              chunk_text.length, get_element_types els', get_source_pages els',
              get_source_sections els'⟩ : ProcessedChunk)]).map chunkTextView := by
          simp [hview, chunkTextView]
        by_cases hbreak : e - cfg.chunk_overlap ≤ 0 ∧ (text.length : Int) ≤ e
        · simp only [if_pos hbreak, Option.map_some]
          exact congrArg some hview'
        · simp only [if_neg hbreak]
          exact ih _ _ els els' _ _ hview'
      · simp only [if_neg hstrip]
        by_cases hbreak : e - cfg.chunk_overlap ≤ 0 ∧ (text.length : Int) ≤ e
        · simp only [if_pos hbreak, Option.map_some]
          exact congrArg some hview
        · simp only [if_neg hbreak]
          exact ih _ _ els els' _ _ hview
    · rw [if_neg hlt, if_neg hlt]
      simpa using hview

theorem fixed_go_text_infix (cfg : ChunkerConfig) (text : List Char)
    (els : List ExtractedElement) :
    ∀ (fuel : Nat) (start : Int) (idx : Nat) (acc res : List ProcessedChunk),
      chunk_by_chars_go cfg text els fuel start idx acc = some res →
      (∀ c ∈ acc, c.text <:+: text) →
      ∀ c ∈ res, c.text <:+: text := by
  intro fuel
  induction fuel with
  | zero =>
    intro start idx acc res h _
    exact absurd h (by rw [chunk_by_chars_go]; simp)
  | succ f ih =>
    intro start idx acc res h hacc
    rw [chunk_by_chars_go] at h
    by_cases hlt : start < (text.length : Int)
    · rw [if_pos hlt] at h
      simp only [] at h
      set e : Int := min (start + cfg.chunk_size) (text.length : Int) with he
      set sliced := pySlice text start e with hsliced
      set chunk_text := if e < (text.length : Int) then
          adjust_to_sentence_boundary sliced else sliced with hct
      have hinfix : pyStrip chunk_text <:+: text := by
        have h1 : pyStrip chunk_text <:+: chunk_text := pyStrip_infix chunk_text
        have h2 : chunk_text <:+: sliced := by
          rw [hct]
          by_cases hadj : e < (text.length : Int)
          · rw [if_pos hadj]
            exact (adjust_front_segment sliced).isInfix
          · rw [if_neg hadj]
        have h3 : sliced <:+: text := pySlice_infix text start e
        exact (h1.trans h2).trans h3
      by_cases hstrip : pyStrip chunk_text ≠ []
      · rw [if_pos hstrip, if_pos hstrip] at h
        have hacc' : ∀ c ∈ acc ++ [(⟨idx, pyStrip chunk_text,
            count_tokens chunk_text, chunk_text.length, get_element_types els,
            get_source_pages els, get_source_sections els⟩ : ProcessedChunk)],
            c.text <:+: text := by
          intro c hc
          rcases List.mem_append.mp hc with hm | hm
          · exact hacc c hm
          · obtain rfl := List.mem_singleton.mp hm
            exact hinfix
        by_cases hbreak : e - cfg.chunk_overlap ≤ 0 ∧ (text.length : Int) ≤ e
        · rw [if_pos hbreak] at h
          obtain rfl := Option.some_injective _ h
          exact hacc'
        · rw [if_neg hbreak] at h
          exact ih _ _ _ _ h hacc'
      · rw [if_neg hstrip, if_neg hstrip] at h
        by_cases hbreak : e - cfg.chunk_overlap ≤ 0 ∧ (text.length : Int) ≤ e
        · rw [if_pos hbreak] at h
          obtain rfl := Option.some_injective _ h
          exact hacc
        · rw [if_neg hbreak] at h
          exact ih _ _ _ _ h hacc
    · rw [if_neg hlt] at h
      obtain rfl := Option.some_injective _ h
      exact hacc

/-- C10: when `raw_text` is a non-empty string the Fixed strategy segments
exactly that string — the stream is `raw_text`, every returned chunk's text
is an infix of it, and the element list influences only the per-chunk
provenance metadata (two inputs with the same stream produce chunks with
identical index/text/token_count/char_count); the blank-line join of the
element-derived texts is the stream only when `raw_text` is empty. -/
theorem c10_fixed_uses_raw_text :
    (∀ r : ExtractionResult, r.raw_text ≠ [] → get_raw_text r = r.raw_text) ∧
      (∀ r : ExtractionResult, r.raw_text = [] →
        get_raw_text r = List.intercalate ("\n\n".toList)
          (r.elements.filterMap elementStreamText)) ∧
      (∀ (cfg : ChunkerConfig) (r : ExtractionResult) (fuel : Nat)
        (res : List ProcessedChunk), r.raw_text ≠ [] →
        chunk_fixed cfg r fuel = some res → ∀ c ∈ res, c.text <:+: r.raw_text) ∧
      (∀ (cfg : ChunkerConfig) (r r' : ExtractionResult) (fuel : Nat),
        get_raw_text r = get_raw_text r' →
        Option.map (List.map chunkTextView) (chunk_fixed cfg r fuel) =
          Option.map (List.map chunkTextView) (chunk_fixed cfg r' fuel)) := by
  refine ⟨fun r h => if_pos h, fun r h => ?_, fun cfg r fuel res hraw h => ?_, ?_⟩
  · unfold get_raw_text
    rw [if_neg (by simp [h])]
  · unfold chunk_fixed at h
    by_cases hempty : pyStrip (get_raw_text r) = []
    · rw [if_pos hempty] at h
      obtain rfl := Option.some_injective _ h
      simp
    · rw [if_neg hempty] at h
      have := fixed_go_text_infix cfg (get_raw_text r) r.elements fuel 0 0 [] res
        h (by simp)
      have hg : get_raw_text r = r.raw_text := by
        unfold get_raw_text
        rw [if_pos hraw]
      rwa [hg] at this
  · intro cfg r r' fuel hstream
    unfold chunk_fixed
    rw [hstream]
    by_cases hempty : pyStrip (get_raw_text r') = []
    · rw [if_pos hempty, if_pos hempty]
    · rw [if_neg hempty, if_neg hempty]
      exact fixed_go_elements_irrelevant cfg (get_raw_text r') fuel 0 0
        r.elements r'.elements [] [] rfl

theorem c10_fixed_uses_raw_text_witness :
    get_raw_text ⟨[elText "zz"], "ab.".toList⟩ = "ab.".toList ∧
      get_raw_text ⟨[elText "zz"], []⟩ =
        List.intercalate ("\n\n".toList)
          ((⟨[elText "zz"], []⟩ : ExtractionResult).elements.filterMap
            elementStreamText) ∧
      (chunk_fixed ⟨10, 0⟩ ⟨[elText "zz"], "ab.".toList⟩ 5 =
          some [⟨0, "ab.".toList, 0, 3, [ElementType.TEXT], [], []⟩] →
        ∀ c ∈ [(⟨0, "ab.".toList, 0, 3, [ElementType.TEXT], [], []⟩ :
            ProcessedChunk)], c.text <:+: "ab.".toList) ∧
      Option.map (List.map chunkTextView)
          (chunk_fixed ⟨10, 0⟩ ⟨[elText "zz"], "ab.".toList⟩ 5) =
        Option.map (List.map chunkTextView)
          (chunk_fixed ⟨10, 0⟩ ⟨[], "ab.".toList⟩ 5) :=
  ⟨c10_fixed_uses_raw_text.1 ⟨[elText "zz"], "ab.".toList⟩ (by decide),
    c10_fixed_uses_raw_text.2.1 ⟨[elText "zz"], []⟩ rfl,
    fun h => c10_fixed_uses_raw_text.2.2.1 ⟨10, 0⟩ ⟨[elText "zz"], "ab.".toList⟩
      5 _ (by decide) h,
    c10_fixed_uses_raw_text.2.2.2 ⟨10, 0⟩ ⟨[elText "zz"], "ab.".toList⟩
      ⟨[], "ab.".toList⟩ 5 rfl⟩

theorem chunkElementText_length_le (el : ExtractedElement) (t : List Char)
    (h : chunkElementText el = some t) : t.length ≤ el.content.length := by
  unfold chunkElementText at h
  by_cases h1 : el.element_type = ElementType.TABLE ∧ truthyTable el.table_data
  · rw [if_pos h1] at h
    obtain rfl := Option.some_injective _ h
    exact le_refl _
  · rw [if_neg h1] at h
    by_cases h2 : pyStrip el.content ≠ []
    · rw [if_pos h2] at h
      obtain rfl := Option.some_injective _ h
      exact pyStrip_length_le _
    · rw [if_neg h2] at h
      cases h

theorem texts_sum_le :
    ∀ els : List ExtractedElement,
      ((els.filterMap chunkElementText).map List.length).sum ≤
        (els.map fun el => el.content.length).sum := by
  intro els
  induction els with
  | nil => simp
  | cons el rest ih =>
    cases h : chunkElementText el with
    | none =>
      simp only [List.filterMap_cons, h, List.map_cons, List.sum_cons]
      omega
    | some t =>
      simp only [List.filterMap_cons, h, List.map_cons, List.sum_cons]
      exact Nat.add_le_add (chunkElementText_length_le el t h) ih

theorem texts_count_le :
    ∀ els : List ExtractedElement, (∀ el ∈ els, el.content ≠ []) →
      (els.filterMap chunkElementText).length ≤
        (els.map fun el => el.content.length).sum := by
  intro els
  induction els with
  | nil => simp
  | cons el rest ih =>
    intro hne
    have h1 : 1 ≤ el.content.length := by
      have := hne el (by simp)
      cases hcl : el.content with
      | nil => exact absurd hcl this
      | cons a l => simp
    have ih' := ih fun u hu => hne u (by simp [hu])
    cases h : chunkElementText el with
    | none =>
      simp only [List.filterMap_cons, h, List.map_cons, List.sum_cons]
      omega
    | some t =>
      simp only [List.filterMap_cons, h, List.map_cons, List.sum_cons,
        List.length_cons]
      omega

theorem create_chunk_token_le {idx : Nat} {els : List ExtractedElement}
    {sec : Option (List Char)} {c : ProcessedChunk}
    (hc : create_chunk_from_elements idx els sec = some c)
    (hne : ∀ el ∈ els, el.content ≠ []) :
    c.token_count ≤ (els.map fun el => el.content.length).sum := by
  obtain ⟨htext, -, htok⟩ := create_chunk_text hc
  have hsep : ("\n\n".toList).length = 2 := rfl
  have hlen : c.text.length ≤ 3 * (els.map fun el => el.content.length).sum := by
    rw [htext]
    have h1 := intercalate_length_le ("\n\n".toList) (els.filterMap chunkElementText)
    have h2 := texts_sum_le els
    have h3 := texts_count_le els hne
    rw [hsep] at h1
    omega
  have htok4 : c.token_count = c.text.length / 4 := htok
  omega

theorem flushBuffer_buf_nil (st : SemState) :
    (flushBuffer st).current_elements = [] := by
  unfold flushBuffer
  by_cases h : st.current_elements ≠ []
  · rw [if_pos h]
    cases create_chunk_from_elements st.chunk_idx st.current_elements
        st.current_section with
    | none => rfl
    | some c => rfl
  · rw [if_neg h]
    exact not_ne_iff.mp h

theorem flushBuffer_size_zero (st : SemState)
    (h0 : st.current_elements = [] → st.current_size = 0) :
    (flushBuffer st).current_size = 0 := by
  unfold flushBuffer
  by_cases h : st.current_elements ≠ []
  · rw [if_pos h]
    cases create_chunk_from_elements st.chunk_idx st.current_elements
        st.current_section with
    | none => rfl
    | some c => rfl
  · rw [if_neg h]
    exact h0 (not_ne_iff.mp h)

theorem flushBuffer_token_bound (st : SemState) (cs : Int)
    (hchunks : ∀ c ∈ st.chunks, (c.token_count : Int) ≤ cs)
    (hsum : st.current_elements ≠ [] →
      (((st.current_elements.map fun el => el.content.length).sum : Nat) : Int) ≤ cs)
    (hne : ∀ el ∈ st.current_elements, el.content ≠ []) :
    ∀ c ∈ (flushBuffer st).chunks, (c.token_count : Int) ≤ cs := by
  rcases flushBuffer_chunks_cases st with h | ⟨d, hd, h⟩ <;> rw [h]
  · exact hchunks
  · intro c hc
    rcases List.mem_append.mp hc with hm | hm
    · exact hchunks c hm
    · obtain rfl := List.mem_singleton.mp hm
      have hbne : st.current_elements ≠ [] := by
        intro hb
        rw [hb] at hd
        simp [create_chunk_from_elements] at hd
      have := create_chunk_token_le hd hne
      calc (c.token_count : Int)
          ≤ ((((st.current_elements.map fun el => el.content.length).sum : Nat)) : Int) := by
            exact_mod_cast this
        _ ≤ cs := hsum hbne

theorem sem_go_token_bound (cfg : ChunkerConfig) :
    ∀ (elems : List ExtractedElement) (st : SemState),
      (∀ el ∈ elems, el.content ≠ [] ∧ (el.content.length : Int) ≤ cfg.chunk_size) →
      (st.current_elements ≠ [] →
        (((st.current_elements.map fun el => el.content.length).sum : Nat) : Int) ≤
          cfg.chunk_size) →
      (∀ c ∈ st.chunks, (c.token_count : Int) ≤ cfg.chunk_size) →
      (st.current_size = (st.current_elements.map fun el => el.content.length).sum) →
      (∀ el ∈ st.current_elements, el.content ≠ []) →
      ∀ c ∈ sem_go cfg elems st, (c.token_count : Int) ≤ cfg.chunk_size := by
  intro elems
  induction elems with
  | nil =>
    intro st _ hsum hchunks _ hne c hc
    rw [sem_go] at hc
    exact flushBuffer_token_bound st cfg.chunk_size hchunks hsum hne c hc
  | cons el rest ih =>
    intro st hels hsum hchunks hsize hne c hc
    have hel := hels el (by simp)
    have hrest : ∀ u ∈ rest, u.content ≠ [] ∧ (u.content.length : Int) ≤
        cfg.chunk_size := fun u hu => hels u (by simp [hu])
    rw [sem_go] at hc
    have hng : ¬ ((get_size el.content : Nat) : Int) > cfg.chunk_size :=
      not_lt.mpr hel.2
    rw [if_neg hng] at hc
    obtain ⟨st1, hst1, hbs⟩ := bufferStep_spec cfg el st
    rw [hbs] at hc
    have hflush_chunks : ∀ d ∈ (flushBuffer st).chunks,
        (d.token_count : Int) ≤ cfg.chunk_size :=
      flushBuffer_token_bound st cfg.chunk_size hchunks hsum hne
    rcases hst1 with h | ⟨h, hnb⟩ <;> subst h
    · refine ih _ hrest ?_ ?_ ?_ ?_ c hc
      · intro hbne
        show ((((((flushBuffer st).current_elements ++ [el]).map
            fun u => u.content.length).sum : Nat)) : Int) ≤ cfg.chunk_size
        rw [flushBuffer_buf_nil st]
        simpa using hel.2
      · exact hflush_chunks
      · show (flushBuffer st).current_size + get_size el.content =
          ((((flushBuffer st).current_elements ++ [el]).map
            fun u => u.content.length).sum)
        rw [flushBuffer_buf_nil st,
          flushBuffer_size_zero st (fun hb => by rw [hsize, hb]; rfl)]
        simp [get_size]
      · intro u hu
        show u.content ≠ []
        rw [flushBuffer_buf_nil st] at hu
        simp only [List.nil_append, List.mem_singleton] at hu
        subst hu
        exact hel.1
    · refine ih _ hrest ?_ ?_ ?_ ?_ c hc
      · intro hbne
        show ((((st1.current_elements ++ [el]).map
            fun u => u.content.length).sum : Nat) : Int) ≤ cfg.chunk_size
        rw [not_lt] at hnb
        rw [hsize] at hnb
        have hsplit : ((st1.current_elements ++ [el]).map
            fun u => u.content.length).sum =
            (st1.current_elements.map fun u => u.content.length).sum +
              el.content.length := by
          simp
        rw [hsplit]
        simpa [get_size] using hnb
      · exact hchunks
      · show st1.current_size + get_size el.content =
          ((st1.current_elements ++ [el]).map fun u => u.content.length).sum
        rw [hsize]
        simp [get_size]
      · intro u hu
        show u.content ≠ []
        rcases List.mem_append.mp hu with hm | hm
        · exact hne u hm
        · obtain rfl := List.mem_singleton.mp hm
          exact hel.1

theorem fixed_go_token_bound (cfg : ChunkerConfig) (text : List Char)
    (els : List ExtractedElement) (hcs : 0 ≤ cfg.chunk_size) :
    ∀ (fuel : Nat) (start : Int) (idx : Nat) (acc res : List ProcessedChunk),
      chunk_by_chars_go cfg text els fuel start idx acc = some res →
      (∀ c ∈ acc, (c.token_count : Int) ≤ cfg.chunk_size) →
      ∀ c ∈ res, (c.token_count : Int) ≤ cfg.chunk_size := by
  intro fuel
  induction fuel with
  | zero =>
    intro start idx acc res h _
    exact absurd h (by rw [chunk_by_chars_go]; simp)
  | succ f ih =>
    intro start idx acc res h hacc
    rw [chunk_by_chars_go] at h
    by_cases hlt : start < (text.length : Int)
    · rw [if_pos hlt] at h
      simp only [] at h
      set e : Int := min (start + cfg.chunk_size) (text.length : Int) with he
      set sliced := pySlice text start e with hsliced
      set chunk_text := if e < (text.length : Int) then
          adjust_to_sentence_boundary sliced else sliced with hct
      have hslen : sliced.length ≤ cfg.chunk_size.toNat := by
        rw [hsliced, he]
        exact pySlice_window_length_le text start cfg.chunk_size hcs
      have hclen : chunk_text.length ≤ cfg.chunk_size.toNat := by
        rw [hct]
        by_cases hadj : e < (text.length : Int)
        · rw [if_pos hadj]
          exact le_trans (adjust_length_le sliced) hslen
        · rw [if_neg hadj]
          exact hslen
      have htokb : ((count_tokens chunk_text : Nat) : Int) ≤ cfg.chunk_size := by
        have : count_tokens chunk_text = chunk_text.length / 4 := rfl
        omega
      by_cases hstrip : pyStrip chunk_text ≠ []
      · rw [if_pos hstrip, if_pos hstrip] at h
        have hacc' : ∀ c ∈ acc ++ [(⟨idx, pyStrip chunk_text,
            count_tokens chunk_text, chunk_text.length, get_element_types els,
            get_source_pages els, get_source_sections els⟩ : ProcessedChunk)],
            (c.token_count : Int) ≤ cfg.chunk_size := by
          intro c hc
          rcases List.mem_append.mp hc with hm | hm
          · exact hacc c hm
          · obtain rfl := List.mem_singleton.mp hm
            exact htokb
        by_cases hbreak : e - cfg.chunk_overlap ≤ 0 ∧ (text.length : Int) ≤ e
        · rw [if_pos hbreak] at h
          obtain rfl := Option.some_injective _ h
          exact hacc'
        · rw [if_neg hbreak] at h
          exact ih _ _ _ _ h hacc'
      · rw [if_neg hstrip, if_neg hstrip] at h
        by_cases hbreak : e - cfg.chunk_overlap ≤ 0 ∧ (text.length : Int) ≤ e
        · rw [if_pos hbreak] at h
          obtain rfl := Option.some_injective _ h
          exact hacc
        · rw [if_neg hbreak] at h
          exact ih _ _ _ _ h hacc
    · rw [if_neg hlt] at h
      obtain rfl := Option.some_injective _ h
      exact hacc

/-- C4 amended: with a non-negative budget the Fixed strategy's chunks always
have `token_count ≤ budget` (on terminating runs), and the Semantic strategy
respects the budget whenever every element's content is non-empty and fits
the budget on its own — i.e. whenever the oversized-content escape hatch is
not involved; zero-size elements (empty content with truthy `table_data`)
void the bound because the blank-line join overhead is never counted. -/
theorem c4_budget_respected_without_oversize :
    (∀ (cfg : ChunkerConfig) (r : ExtractionResult) (fuel : Nat)
      (res : List ProcessedChunk), 0 ≤ cfg.chunk_size →
      chunk_fixed cfg r fuel = some res →
      ∀ c ∈ res, (c.token_count : Int) ≤ cfg.chunk_size) ∧
      (∀ (cfg : ChunkerConfig) (r : ExtractionResult),
        (∀ el ∈ r.elements, el.content ≠ [] ∧
          (el.content.length : Int) ≤ cfg.chunk_size) →
        ∀ c ∈ chunk_semantic cfg r, (c.token_count : Int) ≤ cfg.chunk_size) := by
  constructor
  · intro cfg r fuel res hcs h
    unfold chunk_fixed at h
    by_cases hempty : pyStrip (get_raw_text r) = []
    · rw [if_pos hempty] at h
      obtain rfl := Option.some_injective _ h
      simp
    · rw [if_neg hempty] at h
      exact fixed_go_token_bound cfg (get_raw_text r) r.elements hcs fuel 0 0 []
        res h (by simp)
  · intro cfg r hels
    exact sem_go_token_bound cfg r.elements {} hels
      (fun h => absurd rfl h) (by simp) rfl (by simp)

theorem c4_budget_respected_without_oversize_witness :
    (chunk_fixed ⟨10, 0⟩ ⟨[], "ab".toList⟩ 5 =
        some [⟨0, "ab".toList, 0, 2, [], [], []⟩] →
      ∀ c ∈ [(⟨0, "ab".toList, 0, 2, [], [], []⟩ : ProcessedChunk)],
        (c.token_count : Int) ≤ 10) ∧
      ∀ c ∈ chunk_semantic ⟨1000, 100⟩ ⟨[elText "a"], []⟩,
        (c.token_count : Int) ≤ 1000 :=
  ⟨fun h => c4_budget_respected_without_oversize.1 ⟨10, 0⟩ ⟨[], "ab".toList⟩ 5 _
      (by norm_num) h,
    c4_budget_respected_without_oversize.2 ⟨1000, 100⟩ ⟨[elText "a"], []⟩
      (by decide)⟩

end FileForge
